import Mathlib

/-!
Verification development for the `blackbox_exporter` source
(`src/sources/blackbox_exporter/mod.rs`).

The two pieces of real logic in the module are embedded here:

* `construct_probe_url` (mod.rs lines 252-287): builds the per-target probe
  request URL from the base endpoint, the target and the module.  Target and
  module strings are Rust `&str`s, i.e. sequences of UTF-8 bytes; the
  percent-encoding (`utf8_percent_encode` with `NON_ALPHANUMERIC`) works byte
  by byte, so target/module/query values are modelled as `List Nat` of byte
  values (< 256).  The final `format!("{}://{}{}?{}")` + `parse()` step of the
  Rust function is component-preserving for the well-formed inputs the claims
  quantify over, so the builder is modelled as producing the components
  directly.

* `enrich_events` together with `add_optional_label` (mod.rs lines 385-449):
  mutates each measurement's tag map.  A tag map is modelled as an association
  list with unique keys; `remove_tag`/`replace_tag` of `vector_lib`'s `Metric`
  are modelled by `eraseTag`/`replaceTag`.  The `HashMap` of custom labels is
  iterated in an unspecified order in Rust; it is modelled as a list applied
  in list order.
-/

/-! ## Byte-level percent encoding (percent_encoding crate, NON_ALPHANUMERIC) -/

/-- Bytes of an ASCII string literal (for ASCII strings the UTF-8 bytes are
the code points). -/
def asciiBytes (s : String) : List Nat := s.data.map Char.toNat

/-- A byte in `[A-Za-z0-9]`; `NON_ALPHANUMERIC` percent-escapes every other
byte. -/
def isAlnumByte (b : Nat) : Bool :=
  (48 ≤ b && b ≤ 57) || (65 ≤ b && b ≤ 90) || (97 ≤ b && b ≤ 122)

/-- Upper-case hex digit of a nibble, as emitted by `utf8_percent_encode`. -/
def hexDigit (n : Nat) : Nat := if n < 10 then 48 + n else 55 + n

/-- `utf8_percent_encode(s, NON_ALPHANUMERIC).to_string()` on the UTF-8 bytes
of `s` (mod.rs lines 271-272). -/
def percentEncode : List Nat → List Nat
  | [] => []
  | b :: bs =>
    (if isAlnumByte b then [b] else [37, hexDigit (b / 16), hexDigit (b % 16)])
      ++ percentEncode bs

/-- Value of a hex-digit byte, as accepted by `percent_decode_str`. -/
def hexVal (c : Nat) : Option Nat :=
  if 48 ≤ c && c ≤ 57 then some (c - 48)
  else if 65 ≤ c && c ≤ 70 then some (c - 55)
  else if 97 ≤ c && c ≤ 102 then some (c - 87)
  else none

/-- `percent_decode_str` on bytes: a `%` followed by two hex digits becomes
the corresponding byte, anything else is passed through (a `%` not followed
by two hex digits stays a literal `%`).  The `decode_utf8` validation that
follows in the Rust code is not modelled: in every claim below the decoded
bytes are the UTF-8 bytes of an original Rust string, on which the validation
always succeeds. -/
def percentDecode : List Nat → List Nat
  | [] => []
  | 37 :: h :: l :: rest2 =>
    match hexVal h, hexVal l with
    | some hv, some lv => (16 * hv + lv) :: percentDecode rest2
    | _, _ => 37 :: percentDecode (h :: l :: rest2)
  | b :: rest => b :: percentDecode rest

/-- The bytes of a Rust `&str` are all < 256. -/
abbrev ValidBytes (bs : List Nat) : Prop := ∀ b ∈ bs, b < 256

/-! ## Query-string splitting (as done by `q.split('&')` in the builder) -/

/-- `str::split` on a separator byte (`'&'` = 38 below): splitting the empty
string yields one empty chunk, and every separator delimits. -/
def splitSep (sep : Nat) : List Nat → List (List Nat)
  | [] => [[]]
  | b :: rest =>
    match splitSep sep rest with
    | c :: cs => if b = sep then [] :: c :: cs else (b :: c) :: cs
    | [] => [[]]

/-- `find(|param| param.starts_with(key)).and_then(|p| p.strip_prefix(key))`
over the `'&'`-separated chunks of a query (mod.rs lines 333-337). -/
def extractParamValue (query : List Nat) (key : List Nat) : Option (List Nat) :=
  ((splitSep 38 query).find? (fun p => key.isPrefixOf p)).map
    (fun p => p.drop key.length)

/-- The bytes of `"target="`. -/
def targetKey : List Nat := asciiBytes "target="

/-- The bytes of `"module="`. -/
def moduleKey : List Nat := asciiBytes "module="

/-! ## Probe URL construction (`construct_probe_url`, mod.rs 252-287) -/

/-- The components of the base endpoint `Uri`.  `scheme`/`authority` are
`Option` because `Uri::scheme_str`/`Uri::authority` are; the query is the raw
query-string bytes when present. -/
structure BaseUri where
  scheme : Option String
  authority : Option String
  path : String
  query : Option (List Nat)

/-- The components of the built probe URL. -/
structure ProbeUrl where
  scheme : String
  authority : String
  path : String
  query : List Nat

/-- `path.trim_end_matches('/')`: remove every trailing `'/'`. -/
def trimTrailingSlashes (s : String) : String :=
  String.mk ((s.data.reverse.dropWhile (fun c => c = '/')).reverse)

/-- Probe-path computation (mod.rs 263-268): `/probe` for an empty or root
base path, otherwise the base path with trailing slashes trimmed plus
`/probe`. -/
def probePath (path : String) : String :=
  if path = "" ∨ path = "/" then "/probe"
  else trimTrailingSlashes path ++ "/probe"

/-- Query assembly (mod.rs 274-282): keep an existing base query verbatim and
append `&target=<enc>&module=<enc>`; otherwise the query is exactly
`target=<enc>&module=<enc>`. -/
def probeQuery (baseQuery : Option (List Nat)) (target mdl : List Nat) : List Nat :=
  match baseQuery with
  | some q =>
      q ++ asciiBytes "&target=" ++ percentEncode target
        ++ asciiBytes "&module=" ++ percentEncode mdl
  | none =>
      asciiBytes "target=" ++ percentEncode target
        ++ asciiBytes "&module=" ++ percentEncode mdl

/-- `construct_probe_url` (mod.rs 252-287).  The reassemble-and-reparse step
is modelled component-wise; parse failure for malformed authorities is outside
every claim's quantification ("accepted by the builder"). -/
def constructProbeUrl (base : BaseUri) (target mdl : List Nat) : ProbeUrl :=
  { scheme := base.scheme.getD "http"
    authority := base.authority.getD ""
    path := probePath base.path
    query := probeQuery base.query target mdl }

/-- Target extraction of `BlackboxExporterBuilder::build` (mod.rs 329-344):
find the first `&`-separated query chunk starting with `target=`, strip the
prefix and percent-decode; absence yields the empty string
(`unwrap_or_default`). -/
def buildTargetFromUrl (u : ProbeUrl) : List Nat :=
  match extractParamValue u.query targetKey with
  | some enc => percentDecode enc
  | none => []

/-! ## Tag enrichment (`enrich_events` / `add_optional_label`, mod.rs 385-449) -/

/-- A measurement's tag map, as an association list with unique keys. -/
abbrev TagMap := List (String × String)

/-- Tag lookup (first binding wins; keys are unique in every map the code
produces). -/
def lookupTag : TagMap → String → Option String
  | [], _ => none
  | (k', v) :: rest, k => if k' = k then some v else lookupTag rest k

/-- Removal part of `Metric::remove_tag`. -/
def eraseTag : TagMap → String → TagMap
  | [], _ => []
  | (k', v) :: rest, k =>
    if k' = k then eraseTag rest k else (k', v) :: eraseTag rest k

/-- `Metric::replace_tag`: insert, overwriting any existing binding. -/
def replaceTag (m : TagMap) (k v : String) : TagMap := eraseTag m k ++ [(k, v)]

/-- The rename-then-set pattern shared by the target step, the module step
(mod.rs 390-403) and `add_optional_label` (mod.rs 442-447): remove any
existing tag `k` and stash its value under `exported_<k>` (overwriting), then
set `k`. -/
def renameSet (m : TagMap) (k v : String) : TagMap :=
  replaceTag
    (match lookupTag m k with
     | some old => replaceTag (eraseTag m k) ("exported_" ++ k) old
     | none => m)
    k v

/-- `add_optional_label` (mod.rs 429-449): skip `None` and empty values,
otherwise rename-then-set. -/
def addOptionalLabel (m : TagMap) (k : String) (v : Option String) : TagMap :=
  match v with
  | some val => if val = "" then m else renameSet m k val
  | none => m

/-- `OptionalLabels` (mod.rs 293-302); the custom `HashMap` is modelled as a
list in iteration order. -/
structure OptionalLabels where
  geohash : Option String
  region : Option String
  location : Option String
  country : Option String
  name : Option String
  provider : Option String
  custom : List (String × String)

/-- `BlackboxExporterContext` (mod.rs 355-360). -/
structure BlackboxExporterContext where
  target : String
  module : String
  optionalLabels : OptionalLabels

/-- Per-measurement body of `enrich_events` (mod.rs 385-419): target step,
module step, the six predefined labels in fixed order, then the custom
labels. -/
def enrichTags (m : TagMap) (ctx : BlackboxExporterContext) : TagMap :=
  let m1 := renameSet m "target" ctx.target
  let m2 := renameSet m1 "module" ctx.module
  let m3 := addOptionalLabel m2 "geohash" ctx.optionalLabels.geohash
  let m4 := addOptionalLabel m3 "region" ctx.optionalLabels.region
  let m5 := addOptionalLabel m4 "location" ctx.optionalLabels.location
  let m6 := addOptionalLabel m5 "country" ctx.optionalLabels.country
  let m7 := addOptionalLabel m6 "name" ctx.optionalLabels.name
  let m8 := addOptionalLabel m7 "provider" ctx.optionalLabels.provider
  ctx.optionalLabels.custom.foldl
    (fun acc p => addOptionalLabel acc p.1 (some p.2)) m8

/-- `enrich_events` over a batch of measurements. -/
def enrichEvents (evs : List TagMap) (ctx : BlackboxExporterContext) : List TagMap :=
  evs.map (fun m => enrichTags m ctx)

/-- The six predefined labels with their keys, in application order. -/
def preList (ol : OptionalLabels) : List (String × Option String) :=
  [("geohash", ol.geohash), ("region", ol.region), ("location", ol.location),
   ("country", ol.country), ("name", ol.name), ("provider", ol.provider)]

/-- Folding `addOptionalLabel` over a list of optional labels. -/
def optFold (l : List (String × Option String)) (m : TagMap) : TagMap :=
  l.foldl (fun acc p => addOptionalLabel acc p.1 p.2) m

/-- The six predefined label keys. -/
def predefKeys : List String :=
  ["geohash", "region", "location", "country", "name", "provider"]

/-- Every tag key the enrichment algorithm may write or remove: `target`,
`module`, the six predefined keys, the custom keys, and the `exported_`
counterparts of all of them. -/
def touchedKeys (ctx : BlackboxExporterContext) : List String :=
  ["target", "module", "exported_target", "exported_module"]
    ++ predefKeys ++ predefKeys.map (fun k => "exported_" ++ k)
    ++ ctx.optionalLabels.custom.map Prod.fst
    ++ ctx.optionalLabels.custom.map (fun p => "exported_" ++ p.1)

/-- Modelled from the spec: the probe path as claim C4 words it ("strip any
single trailing `/` from the base path"), for comparison with the code's
`probePath`. -/
def claimSingleSlashProbePath (p : String) : String :=
  if p = "" ∨ p = "/" then "/probe"
  else (if p.data.getLast? = some '/' then String.mk p.data.dropLast else p) ++ "/probe"

theorem splitSep_ne_nil (sep : Nat) (l : List Nat) : splitSep sep l ≠ [] := by
  cases l with
  | nil => simp [splitSep]
  | cons b rest =>
    simp only [splitSep]
    cases h : splitSep sep rest with
    | nil => simp
    | cons c cs =>
      by_cases hb : b = sep <;> simp [hb]

/-! ## Tag-map lemmas -/

theorem lookupTag_append (a b : TagMap) (k : String) :
    lookupTag (a ++ b) k =
      match lookupTag a k with
      | some v => some v
      | none => lookupTag b k := by
  induction a with
  | nil => simp [lookupTag]
  | cons p rest ih =>
    obtain ⟨k', v⟩ := p
    by_cases h : k' = k <;> simp [lookupTag, h, ih]

theorem lookupTag_eraseTag (m : TagMap) (k k' : String) :
    lookupTag (eraseTag m k) k' = if k' = k then none else lookupTag m k' := by
  induction m with
  | nil => simp [lookupTag, eraseTag]
  | cons p rest ih =>
    obtain ⟨k0, v⟩ := p
    by_cases h0 : k0 = k
    · subst h0
      rw [eraseTag, if_pos rfl, ih]
      by_cases h1 : k' = k0
      · simp [h1]
      · rw [if_neg h1, if_neg h1, lookupTag, if_neg (fun h : k0 = k' => h1 h.symm)]
    · rw [eraseTag, if_neg h0, lookupTag]
      by_cases h1 : k0 = k'
      · rw [if_pos h1, if_neg (fun h : k' = k => h0 (h1.trans h)), lookupTag, if_pos h1]
      · rw [if_neg h1, ih]
        by_cases h2 : k' = k
        · simp [h2]
        · rw [if_neg h2, if_neg h2, lookupTag, if_neg h1]

theorem lookupTag_replaceTag (m : TagMap) (k v k' : String) :
    lookupTag (replaceTag m k v) k' = if k' = k then some v else lookupTag m k' := by
  rw [replaceTag, lookupTag_append, lookupTag_eraseTag]
  by_cases h : k' = k
  · simp [lookupTag, h]
  · rw [if_neg h, if_neg h]
    cases hl : lookupTag m k' <;>
      simp [lookupTag, hl, if_neg (fun hh : k = k' => h hh.symm)]

/-! ## String helpers for the `exported_` prefix -/

theorem exported_ne_self (k : String) : "exported_" ++ k ≠ k := by
  intro h
  have h2 := congrArg String.length h
  rw [String.length_append] at h2
  have h9 : "exported_".length = 9 := by decide
  omega

theorem ne_exported_of_short {k : String} (h : k.length < 9) (s : String) :
    k ≠ "exported_" ++ s := by
  intro he
  have h2 := congrArg String.length he
  rw [String.length_append] at h2
  have h9 : "exported_".length = 9 := by decide
  omega

theorem exported_inj {a b : String} : "exported_" ++ a = "exported_" ++ b ↔ a = b := by
  constructor
  · intro h
    have h2 := congrArg String.data h
    rw [String.data_append, String.data_append] at h2
    exact String.ext (List.append_cancel_left h2)
  · intro h; rw [h]

/-! ## Rename-then-set lemmas -/

theorem lookupTag_renameSet (m : TagMap) (k v b : String) :
    lookupTag (renameSet m k v) b =
      if b = k then some v
      else if b = "exported_" ++ k then
        match lookupTag m k with
        | some old => some old
        | none => lookupTag m b
      else lookupTag m b := by
  rw [renameSet]
  cases hmk : lookupTag m k with
  | none =>
    by_cases hb : b = k <;>
      by_cases hbe : b = "exported_" ++ k <;>
        simp [lookupTag_replaceTag, hb, hbe]
  | some old =>
    by_cases hb : b = k
    · simp [lookupTag_replaceTag, hb]
    · by_cases hbe : b = "exported_" ++ k <;>
        simp [lookupTag_replaceTag, lookupTag_eraseTag, hb, hbe]

theorem lookupTag_renameSet_ne (m : TagMap) (k v b : String)
    (h1 : b ≠ k) (h2 : b ≠ "exported_" ++ k) :
    lookupTag (renameSet m k v) b = lookupTag m b := by
  simp [lookupTag_renameSet, h1, h2]

theorem lookupTag_addOptionalLabel_ne (m : TagMap) (k : String) (ov : Option String)
    (b : String) (h1 : b ≠ k) (h2 : b ≠ "exported_" ++ k) :
    lookupTag (addOptionalLabel m k ov) b = lookupTag m b := by
  cases ov with
  | none => rfl
  | some w =>
    by_cases hw : w = "" <;> simp [addOptionalLabel, hw, lookupTag_renameSet_ne m k w b h1 h2]

/-! ## Fold lemmas over optional-label lists -/

theorem optFold_nil (m : TagMap) : optFold [] m = m := rfl

theorem optFold_cons (p : String × Option String) (l : List (String × Option String))
    (m : TagMap) : optFold (p :: l) m = optFold l (addOptionalLabel m p.1 p.2) := rfl

theorem optFold_append (l₁ l₂ : List (String × Option String)) (m : TagMap) :
    optFold (l₁ ++ l₂) m = optFold l₂ (optFold l₁ m) := by
  simp [optFold, List.foldl_append]

theorem lookupTag_optFold_ne (l : List (String × Option String)) (m : TagMap) (b : String)
    (h : ∀ p ∈ l, ∀ w, p.2 = some w → w ≠ "" → b ≠ p.1 ∧ b ≠ "exported_" ++ p.1) :
    lookupTag (optFold l m) b = lookupTag m b := by
  induction l generalizing m with
  | nil => rfl
  | cons p l ih =>
    rw [optFold_cons, ih _ (fun q hq => h q (List.mem_cons_of_mem p hq))]
    cases hp : p.2 with
    | none => rfl
    | some w =>
      by_cases hw : w = ""
      · simp [addOptionalLabel, hw]
      · obtain ⟨hb1, hb2⟩ := h p (List.mem_cons_self p l) w hp hw
        exact lookupTag_addOptionalLabel_ne m p.1 (some w) b hb1 hb2

theorem enrichTags_eq (m : TagMap) (ctx : BlackboxExporterContext) :
    enrichTags m ctx =
      optFold
        (preList ctx.optionalLabels
          ++ ctx.optionalLabels.custom.map (fun p => (p.1, some p.2)))
        (renameSet (renameSet m "target" ctx.target) "module" ctx.module) := by
  simp only [enrichTags, optFold, preList, List.foldl_append, List.foldl_map,
    List.foldl_cons, List.foldl_nil]

theorem lookupTag_optFold_step (l₁ l₂ : List (String × Option String)) (k v : String)
    (m : TagMap) (hv : v ≠ "")
    (h₂ : ∀ p ∈ l₂, ∀ w, p.2 = some w → w ≠ "" →
      p.1 ≠ k ∧ p.1 ≠ "exported_" ++ k ∧ k ≠ "exported_" ++ p.1) :
    lookupTag (optFold (l₁ ++ (k, some v) :: l₂) m) k = some v ∧
    lookupTag (optFold (l₁ ++ (k, some v) :: l₂) m) ("exported_" ++ k) =
      (match lookupTag (optFold l₁ m) k with
       | some old => some old
       | none => lookupTag (optFold l₁ m) ("exported_" ++ k)) := by
  rw [optFold_append, optFold_cons]
  constructor
  · rw [lookupTag_optFold_ne l₂ _ k
      (fun p hp w hw hw' =>
        ⟨fun h => ((h₂ p hp w hw hw').1 h.symm),
         fun h => ((h₂ p hp w hw hw').2.2 h)⟩)]
    simp [addOptionalLabel, hv, lookupTag_renameSet]
  · rw [lookupTag_optFold_ne l₂ _ ("exported_" ++ k)
      (fun p hp w hw hw' =>
        ⟨fun h => ((h₂ p hp w hw hw').2.1 h.symm),
         fun h => ((h₂ p hp w hw hw').1 (exported_inj.mp h).symm)⟩)]
    simp only [addOptionalLabel, if_neg hv, lookupTag_renameSet,
      if_neg (exported_ne_self k)]
    simp

theorem lookupTag_renameSet2_ne (m : TagMap) (t mo b : String)
    (h1 : b ≠ "target") (h2 : b ≠ "exported_target")
    (h3 : b ≠ "module") (h4 : b ≠ "exported_module") :
    lookupTag (renameSet (renameSet m "target" t) "module" mo) b = lookupTag m b := by
  rw [lookupTag_renameSet_ne _ _ _ _ h3 h4, lookupTag_renameSet_ne _ _ _ _ h1 h2]

/-! ## Percent-encoding lemmas -/

theorem percentDecode_cons_ne (b : Nat) (rest : List Nat) (hb : b ≠ 37) :
    percentDecode (b :: rest) = b :: percentDecode rest := by
  cases rest with
  | nil => simp [percentDecode, hb]
  | cons c rest2 =>
    cases rest2 with
    | nil => simp [percentDecode, hb]
    | cons d rest3 => simp [percentDecode, hb]

theorem percentDecode_cons37 (h l : Nat) (rest : List Nat) :
    percentDecode (37 :: h :: l :: rest) =
      match hexVal h, hexVal l with
      | some hv, some lv => (16 * hv + lv) :: percentDecode rest
      | _, _ => 37 :: percentDecode (h :: l :: rest) := rfl

theorem hexVal_hexDigit (n : Nat) (h : n < 16) : hexVal (hexDigit n) = some n := by
  unfold hexVal hexDigit
  split_ifs <;> simp_all <;> omega

theorem isAlnumByte_ge (b : Nat) (h : isAlnumByte b = true) : 48 ≤ b := by
  simp [isAlnumByte] at h
  omega

theorem hexDigit_ge (n : Nat) : 48 ≤ hexDigit n := by
  unfold hexDigit
  split_ifs <;> omega

theorem percentEncode_mem_ge (bs : List Nat) :
    ∀ x ∈ percentEncode bs, x = 37 ∨ 48 ≤ x := by
  induction bs with
  | nil => simp [percentEncode]
  | cons b rest ih =>
    intro x hx
    rw [percentEncode] at hx
    rcases List.mem_append.mp hx with h | h
    · by_cases hb : isAlnumByte b
      · rw [if_pos hb] at h
        simp at h
        exact Or.inr (h ▸ isAlnumByte_ge b hb)
      · rw [if_neg hb] at h
        simp at h
        rcases h with h | h | h
        · exact Or.inl h
        · exact Or.inr (h ▸ hexDigit_ge _)
        · exact Or.inr (h ▸ hexDigit_ge _)
    · exact ih x h

theorem amp_not_mem_percentEncode (bs : List Nat) : 38 ∉ percentEncode bs := by
  intro h
  rcases percentEncode_mem_ge bs 38 h with h | h <;> omega

theorem percentDecode_percentEncode {bs : List Nat} (h : ValidBytes bs) :
    percentDecode (percentEncode bs) = bs := by
  induction bs with
  | nil => rfl
  | cons b rest ih =>
    have hb : b < 256 := h b (List.mem_cons_self b rest)
    have hrest : ValidBytes rest := fun x hx => h x (List.mem_cons_of_mem b hx)
    rw [percentEncode]
    by_cases ha : isAlnumByte b
    · rw [if_pos ha, List.singleton_append,
        percentDecode_cons_ne b _ (by intro hh; subst hh; simp [isAlnumByte] at ha),
        ih hrest]
    · rw [if_neg ha]
      have heq : [37, hexDigit (b / 16), hexDigit (b % 16)] ++ percentEncode rest
          = 37 :: hexDigit (b / 16) :: hexDigit (b % 16) :: percentEncode rest := rfl
      rw [heq, percentDecode_cons37,
        hexVal_hexDigit (b / 16) (by omega), hexVal_hexDigit (b % 16) (by omega)]
      rw [ih hrest]
      show (16 * (b / 16) + b % 16) :: rest = b :: rest
      rw [Nat.div_add_mod]

/-! ## Query-splitting lemmas -/

theorem splitSep_cons (sep b : Nat) (rest : List Nat) :
    splitSep sep (b :: rest) =
      match splitSep sep rest with
      | c :: cs => if b = sep then [] :: c :: cs else (b :: c) :: cs
      | [] => [[]] := rfl

theorem splitSep_append_sep (sep : Nat) (p q : List Nat) :
    splitSep sep (p ++ sep :: q) = splitSep sep p ++ splitSep sep q := by
  induction p with
  | nil =>
    rw [List.nil_append, splitSep_cons]
    cases hq : splitSep sep q with
    | nil => exact absurd hq (splitSep_ne_nil sep q)
    | cons c cs => simp [splitSep]
  | cons b p ih =>
    rw [List.cons_append, splitSep_cons, ih, splitSep_cons]
    cases hp : splitSep sep p with
    | nil => exact absurd hp (splitSep_ne_nil sep p)
    | cons c cs =>
      by_cases hb : b = sep <;> simp [hb]

theorem splitSep_of_not_mem {sep : Nat} {l : List Nat} (h : sep ∉ l) :
    splitSep sep l = [l] := by
  induction l with
  | nil => rfl
  | cons b rest ih =>
    have hb : b ≠ sep := fun hh => h (hh ▸ List.mem_cons_self b rest)
    rw [splitSep_cons, ih (fun hh => h (List.mem_cons_of_mem b hh))]
    simp [hb]

theorem find?_append_of_none {α : Type} (p : α → Bool) (l₁ l₂ : List α)
    (h : ∀ x ∈ l₁, p x = false) :
    List.find? p (l₁ ++ l₂) = List.find? p l₂ := by
  induction l₁ with
  | nil => rfl
  | cons a l ih =>
    rw [List.cons_append, List.find?, h a (List.mem_cons_self a l),
      ih (fun x hx => h x (List.mem_cons_of_mem a hx))]

/-! ## Extraction of `target=` / `module=` from the built query -/

theorem isPrefixOf_append_self (a b : List Nat) : a.isPrefixOf (a ++ b) = true := by
  induction a with
  | nil => simp [List.isPrefixOf]
  | cons x xs ih => simp [List.isPrefixOf, ih]

theorem moduleKey_not_prefix_targetChunk (e : List Nat) :
    moduleKey.isPrefixOf (targetKey ++ e) = false := by
  have h1 : targetKey = 116 :: [97, 114, 103, 101, 116, 61] := by decide
  have h2 : moduleKey = 109 :: [111, 100, 117, 108, 101, 61] := by decide
  rw [h1, h2, List.cons_append]
  simp [List.isPrefixOf]

theorem amp_not_mem_targetChunk (t : List Nat) :
    38 ∉ targetKey ++ percentEncode t := by
  intro h
  rcases List.mem_append.mp h with h | h
  · revert h; decide
  · exact amp_not_mem_percentEncode t h

theorem amp_not_mem_moduleChunk (m : List Nat) :
    38 ∉ moduleKey ++ percentEncode m := by
  intro h
  rcases List.mem_append.mp h with h | h
  · revert h; decide
  · exact amp_not_mem_percentEncode m h

theorem probeQuery_split_none (t m : List Nat) :
    splitSep 38 (probeQuery none t m) =
      [targetKey ++ percentEncode t, moduleKey ++ percentEncode m] := by
  have hC : asciiBytes "&module=" = 38 :: moduleKey := by decide
  have hA : asciiBytes "target=" = targetKey := by decide
  show splitSep 38 (asciiBytes "target=" ++ percentEncode t
      ++ asciiBytes "&module=" ++ percentEncode m) = _
  rw [hA, hC]
  have he : targetKey ++ percentEncode t ++ (38 :: moduleKey) ++ percentEncode m
      = (targetKey ++ percentEncode t) ++ 38 :: (moduleKey ++ percentEncode m) := by
    simp [List.append_assoc]
  rw [he, splitSep_append_sep,
    splitSep_of_not_mem (amp_not_mem_targetChunk t),
    splitSep_of_not_mem (amp_not_mem_moduleChunk m)]
  rfl

theorem probeQuery_split_some (q t m : List Nat) :
    splitSep 38 (probeQuery (some q) t m) =
      splitSep 38 q ++ [targetKey ++ percentEncode t, moduleKey ++ percentEncode m] := by
  have hC : asciiBytes "&module=" = 38 :: moduleKey := by decide
  have hD : asciiBytes "&target=" = 38 :: targetKey := by decide
  show splitSep 38 (q ++ asciiBytes "&target=" ++ percentEncode t
      ++ asciiBytes "&module=" ++ percentEncode m) = _
  rw [hD, hC]
  have he : q ++ (38 :: targetKey) ++ percentEncode t ++ (38 :: moduleKey) ++ percentEncode m
      = q ++ 38 :: ((targetKey ++ percentEncode t) ++ 38 :: (moduleKey ++ percentEncode m)) := by
    simp [List.append_assoc]
  rw [he, splitSep_append_sep, splitSep_append_sep,
    splitSep_of_not_mem (amp_not_mem_targetChunk t),
    splitSep_of_not_mem (amp_not_mem_moduleChunk m)]
  rfl

theorem extract_target_from_built (baseQ : Option (List Nat)) (t m : List Nat)
    (hbase : ∀ q, baseQ = some q →
      ∀ p ∈ splitSep 38 q, targetKey.isPrefixOf p = false) :
    extractParamValue (probeQuery baseQ t m) targetKey = some (percentEncode t) := by
  cases baseQ with
  | none =>
    rw [extractParamValue, probeQuery_split_none,
      List.find?_cons_of_pos _ (isPrefixOf_append_self targetKey (percentEncode t))]
    simp [List.drop_left]
  | some q =>
    rw [extractParamValue, probeQuery_split_some,
      find?_append_of_none _ _ _ (hbase q rfl),
      List.find?_cons_of_pos _ (isPrefixOf_append_self targetKey (percentEncode t))]
    simp [List.drop_left]

theorem extract_module_from_built (baseQ : Option (List Nat)) (t m : List Nat)
    (hbase : ∀ q, baseQ = some q →
      ∀ p ∈ splitSep 38 q, moduleKey.isPrefixOf p = false) :
    extractParamValue (probeQuery baseQ t m) moduleKey = some (percentEncode m) := by
  cases baseQ with
  | none =>
    rw [extractParamValue, probeQuery_split_none,
      List.find?_cons_of_neg _ (by rw [moduleKey_not_prefix_targetChunk]; simp),
      List.find?_cons_of_pos _ (isPrefixOf_append_self moduleKey (percentEncode m))]
    simp [List.drop_left]
  | some q =>
    rw [extractParamValue, probeQuery_split_some,
      find?_append_of_none _ _ _ (hbase q rfl),
      List.find?_cons_of_neg _ (by rw [moduleKey_not_prefix_targetChunk]; simp),
      List.find?_cons_of_pos _ (isPrefixOf_append_self moduleKey (percentEncode m))]
    simp [List.drop_left]

/-! ## Trailing-slash lemmas for the probe path -/

theorem dropWhile_head_not {α : Type} (p : α → Bool) (l : List α) (c : α) (cs : List α)
    (h : l.dropWhile p = c :: cs) : p c = false := by
  induction l with
  | nil => simp [List.dropWhile] at h
  | cons a l ih =>
    cases hpa : p a
    · rw [List.dropWhile_cons, hpa] at h
      simp at h
      exact h.1 ▸ hpa
    · rw [List.dropWhile_cons, hpa] at h
      exact ih h

theorem probePath_no_double_slash (p : String) :
    ¬ ("//probe".data <:+ (probePath p).data) := by
  rw [probePath]
  by_cases h0 : p = "" ∨ p = "/"
  · rw [if_pos h0]
    intro hsuf
    have hlen := List.IsSuffix.length_le hsuf
    revert hlen; decide
  · rw [if_neg h0]
    intro hsuf
    rw [String.data_append] at hsuf
    have h7 : "//probe".data = '/' :: "/probe".data := by decide
    rw [h7] at hsuf
    obtain ⟨pre, hpre⟩ := hsuf
    have hpre2 : (pre ++ ['/']) ++ "/probe".data
        = (trimTrailingSlashes p).data ++ "/probe".data := by
      simpa [List.append_assoc] using hpre
    have hq : pre ++ ['/'] = (trimTrailingSlashes p).data :=
      List.append_cancel_right hpre2
    have hrev : (p.data.reverse.dropWhile (fun c => c = '/')) = '/' :: pre.reverse := by
      have : (trimTrailingSlashes p).data.reverse = '/' :: pre.reverse := by
        rw [← hq]; simp
      rw [trimTrailingSlashes] at this
      rw [← this, List.reverse_reverse]
    have hhead := dropWhile_head_not (fun c => c = '/') p.data.reverse '/' pre.reverse hrev
    simp at hhead

/-! ## Claim theorems -/

/-- C2, counterexample: for base `http://bb:9115/metrics`, target
`https://a.com`, module `http_2xx`, the built query is NOT
`target=https%3A%2F%2Fa.com&module=http_2xx` as the claim states:
`NON_ALPHANUMERIC` also escapes `.` and `_`. -/
theorem C2_counterexample :
    (constructProbeUrl ⟨some "http", some "bb:9115", "/metrics", none⟩
        (asciiBytes "https://a.com") (asciiBytes "http_2xx")).query
      ≠ asciiBytes "target=https%3A%2F%2Fa.com&module=http_2xx" := by decide

/-- C2, amended: for base `http://bb:9115/metrics`, target `https://a.com`,
module `http_2xx`, the built URL has path `/metrics/probe` and query exactly
`target=https%3A%2F%2Fa%2Ecom&module=http%5F2xx` (every non-alphanumeric
byte, including `.` and `_`, is percent-escaped). -/
theorem C2_amended :
    (constructProbeUrl ⟨some "http", some "bb:9115", "/metrics", none⟩
        (asciiBytes "https://a.com") (asciiBytes "http_2xx")).path = "/metrics/probe" ∧
    (constructProbeUrl ⟨some "http", some "bb:9115", "/metrics", none⟩
        (asciiBytes "https://a.com") (asciiBytes "http_2xx")).query
      = asciiBytes "target=https%3A%2F%2Fa%2Ecom&module=http%5F2xx" := by decide

/-- C4, counterexample: for base path `/a//probe//` the built path is
`/a//probe/probe` — not the claim's "`P` with a single trailing slash
removed followed by `/probe`" (which would be `/a//probe//probe`, since
`trim_end_matches` strips ALL trailing slashes) — and it does contain
`//probe`, refuting "never contains `//probe`". -/
theorem C4_counterexample :
    (constructProbeUrl ⟨some "http", some "h", "/a//probe//", none⟩
        (asciiBytes "t") (asciiBytes "m")).path
      ≠ claimSingleSlashProbePath "/a//probe//" ∧
    "//probe".data <:+:
      (constructProbeUrl ⟨some "http", some "h", "/a//probe//", none⟩
        (asciiBytes "t") (asciiBytes "m")).path.data := by decide

/-- C4, amended: the built URL's path is `/probe` when the base path is empty
or exactly `/`, and otherwise equals the base path with ALL trailing slashes
removed followed by `/probe`; the built path never ENDS in `//probe` (the
appended `/probe` never creates a double slash; `//probe` can still occur
inside a base path that already contains it). -/
theorem C4_amended (base : BaseUri) (t m : List Nat) :
    (constructProbeUrl base t m).path
      = (if base.path = "" ∨ base.path = "/" then "/probe"
         else trimTrailingSlashes base.path ++ "/probe") ∧
    ¬ ("//probe".data <:+ (constructProbeUrl base t m).path.data) :=
  ⟨rfl, probePath_no_double_slash base.path⟩

/-- C9, confirmed: when the base endpoint carries a query string `Q`, the
built URL's query is exactly `Q` (byte-for-byte) followed by
`&target=<encoded>&module=<encoded>`; otherwise it is exactly
`target=<encoded>&module=<encoded>`. -/
theorem C9_query_assembly (base : BaseUri) (t m : List Nat) :
    (∀ q, base.query = some q →
      (constructProbeUrl base t m).query
        = q ++ asciiBytes "&target=" ++ percentEncode t
            ++ asciiBytes "&module=" ++ percentEncode m) ∧
    (base.query = none →
      (constructProbeUrl base t m).query
        = asciiBytes "target=" ++ percentEncode t
            ++ asciiBytes "&module=" ++ percentEncode m) := by
  constructor
  · intro q hq
    simp [constructProbeUrl, probeQuery, hq]
  · intro hq
    simp [constructProbeUrl, probeQuery, hq]

/-- Witness for C9 at a concrete base with query `a=b`, target `t`, module
`m`. -/
theorem C9_query_assembly_witness :
    (constructProbeUrl ⟨some "http", some "h", "/", some (asciiBytes "a=b")⟩
        (asciiBytes "t") (asciiBytes "m")).query
      = asciiBytes "a=b" ++ asciiBytes "&target=" ++ percentEncode (asciiBytes "t")
          ++ asciiBytes "&module=" ++ percentEncode (asciiBytes "m") :=
  (C9_query_assembly ⟨some "http", some "h", "/", some (asciiBytes "a=b")⟩
      (asciiBytes "t") (asciiBytes "m")).1 (asciiBytes "a=b") rfl

/-- C1, counterexample: for a measurement with tags
`target=a, exported_target=b`, enrichment overwrites the value `b` of the
pre-existing tag `exported_target` (the target rename clobbers it) and `b`
ends up under NO key of the tag map at all — information is dropped. -/
theorem C1_counterexample :
    lookupTag [("target", "a"), ("exported_target", "b")] "exported_target" = some "b" ∧
    lookupTag (enrichTags [("target", "a"), ("exported_target", "b")]
        ⟨"T", "M", ⟨none, none, none, none, none, none, []⟩⟩) "exported_target"
      ≠ some "b" ∧
    "b" ∉ (enrichTags [("target", "a"), ("exported_target", "b")]
        ⟨"T", "M", ⟨none, none, none, none, none, none, []⟩⟩).map Prod.snd := by decide

/-- C1, amended: preservation holds per step, not end-to-end: any tag value
overwritten by an individual rename-then-set operation (the target step, the
module step, or `add_optional_label` with a nonempty value) is — immediately
after that operation — present under the renamed key `exported_<key>`.  A
later step of the same enrichment call may overwrite `exported_<key>`, so the
old value need not survive to the end of the call. -/
theorem C1_amended (m : TagMap) (k v w : String)
    (h : lookupTag m k = some v) (hw : w ≠ "") :
    lookupTag (renameSet m k w) ("exported_" ++ k) = some v ∧
    lookupTag (addOptionalLabel m k (some w)) ("exported_" ++ k) = some v := by
  have h1 : lookupTag (renameSet m k w) ("exported_" ++ k) = some v := by
    rw [lookupTag_renameSet, if_neg (exported_ne_self k), if_pos rfl, h]
  refine ⟨h1, ?_⟩
  rw [show addOptionalLabel m k (some w) = renameSet m k w by
    simp [addOptionalLabel, hw]]
  exact h1

/-- Witness for C1's amended theorem at tags `target=a`, new value `T`. -/
theorem C1_amended_witness :
    lookupTag [("target", "a")] "target" = some "a" ∧
    lookupTag (renameSet [("target", "a")] "target" "T") ("exported_" ++ "target")
      = some "a" ∧
    lookupTag (addOptionalLabel [("target", "a")] "target" (some "T"))
        ("exported_" ++ "target") = some "a" :=
  ⟨by decide,
   (C1_amended [("target", "a")] "target" "a" "T" (by decide) (by decide)).1,
   (C1_amended [("target", "a")] "target" "a" "T" (by decide) (by decide)).2⟩

theorem preList_key_mem {ol : OptionalLabels} {p : String × Option String}
    (hp : p ∈ preList ol) : p.1 ∈ predefKeys := by
  simp [preList] at hp
  rcases hp with h | h | h | h | h | h <;> subst h <;> simp [predefKeys]

theorem enrich_frame_to_tm (m : TagMap) (ctx : BlackboxExporterContext) (b : String)
    (hpre : ∀ k ∈ predefKeys, b ≠ k ∧ b ≠ "exported_" ++ k)
    (hcust : ∀ p ∈ ctx.optionalLabels.custom, p.2 ≠ "" →
      b ≠ p.1 ∧ b ≠ "exported_" ++ p.1) :
    lookupTag (enrichTags m ctx) b =
      lookupTag (renameSet (renameSet m "target" ctx.target) "module" ctx.module) b := by
  rw [enrichTags_eq]
  apply lookupTag_optFold_ne
  intro p hp w hw hww
  rcases List.mem_append.mp hp with hp | hp
  · exact hpre p.1 (preList_key_mem hp)
  · obtain ⟨c, hc, hpc⟩ := List.mem_map.mp hp
    subst hpc
    simp only at hw
    obtain rfl : c.2 = w := Option.some.inj hw
    exact hcust c hc hww

/-- C10, counterexample: an ad-hoc label keyed `target` overrides the
unconditionally-set target tag, so a context with empty decoded target and
custom label `target=z` ends with `target=z`, not the context's (empty)
target. -/
theorem C10_counterexample :
    lookupTag (enrichTags []
        ⟨"", "mo", ⟨none, none, none, none, none, none, [("target", "z")]⟩⟩) "target"
      ≠ some "" := by decide

/-- C10, amended: provided no custom label with a nonempty value is keyed
`target` or `module`, after enrichment every measurement carries
`target = ctx.target` and `module = ctx.module`, set unconditionally — in
particular a context whose target decoded to the empty string still yields a
`target` tag whose value is the empty string. -/
theorem C10_amended (m : TagMap) (ctx : BlackboxExporterContext)
    (hcust : ∀ p ∈ ctx.optionalLabels.custom, p.2 ≠ "" →
      p.1 ≠ "target" ∧ p.1 ≠ "module") :
    lookupTag (enrichTags m ctx) "target" = some ctx.target ∧
    lookupTag (enrichTags m ctx) "module" = some ctx.module := by
  have ht := enrich_frame_to_tm m ctx "target" (by decide)
    (fun p hp hne => ⟨(hcust p hp hne).1.symm, ne_exported_of_short (by decide) p.1⟩)
  have hmo := enrich_frame_to_tm m ctx "module" (by decide)
    (fun p hp hne => ⟨(hcust p hp hne).2.symm, ne_exported_of_short (by decide) p.1⟩)
  constructor
  · rw [ht, lookupTag_renameSet_ne _ _ _ _ (by decide) (by decide), lookupTag_renameSet]
    simp
  · rw [hmo, lookupTag_renameSet]
    simp

/-- Witness for C10's amended theorem: empty custom labels, empty context
target. -/
theorem C10_amended_witness :
    lookupTag (enrichTags []
        ⟨"", "m1", ⟨none, none, none, none, none, none, []⟩⟩) "target" = some "" ∧
    lookupTag (enrichTags []
        ⟨"", "m1", ⟨none, none, none, none, none, none, []⟩⟩) "module" = some "m1" :=
  C10_amended [] ⟨"", "m1", ⟨none, none, none, none, none, none, []⟩⟩ (by simp)

/-- C6, counterexample: with a context whose custom labels contain
`target=z`, a measurement with existing tag `target=a` does NOT end with
`target` equal to the context's target `Y`. -/
theorem C6_counterexample :
    lookupTag (enrichTags [("target", "a")]
        ⟨"Y", "M", ⟨none, none, none, none, none, none, [("target", "z")]⟩⟩) "target"
      ≠ some "Y" := by decide

/-- C6, amended: provided no custom label with a nonempty value is keyed
`target`, `exported_target`, `module` or `exported_module`, a measurement
with existing tag `target=X` enriched with context target `Y` ends with
`target=Y` and `exported_target=X` (overwriting any prior `exported_target`),
and likewise for `module`/`exported_module`. -/
theorem C6_amended (m : TagMap) (ctx : BlackboxExporterContext)
    (hcust : ∀ p ∈ ctx.optionalLabels.custom, p.2 ≠ "" →
      p.1 ≠ "target" ∧ p.1 ≠ "exported_target" ∧
      p.1 ≠ "module" ∧ p.1 ≠ "exported_module") :
    (∀ X, lookupTag m "target" = some X →
      lookupTag (enrichTags m ctx) "target" = some ctx.target ∧
      lookupTag (enrichTags m ctx) "exported_target" = some X) ∧
    (∀ Y, lookupTag m "module" = some Y →
      lookupTag (enrichTags m ctx) "module" = some ctx.module ∧
      lookupTag (enrichTags m ctx) "exported_module" = some Y) := by
  have htt : "exported_target" = "exported_" ++ "target" := by decide
  have htm : "exported_module" = "exported_" ++ "module" := by decide
  have ht := enrich_frame_to_tm m ctx "target" (by decide)
    (fun p hp hne => ⟨(hcust p hp hne).1.symm, ne_exported_of_short (by decide) p.1⟩)
  have hmo := enrich_frame_to_tm m ctx "module" (by decide)
    (fun p hp hne => ⟨(hcust p hp hne).2.2.1.symm, ne_exported_of_short (by decide) p.1⟩)
  have het := enrich_frame_to_tm m ctx "exported_target" (by decide)
    (fun p hp hne =>
      ⟨(hcust p hp hne).2.1.symm,
       fun hh => (hcust p hp hne).1 (exported_inj.mp (htt ▸ hh)).symm⟩)
  have hem := enrich_frame_to_tm m ctx "exported_module" (by decide)
    (fun p hp hne =>
      ⟨(hcust p hp hne).2.2.2.symm,
       fun hh => (hcust p hp hne).2.2.1 (exported_inj.mp (htm ▸ hh)).symm⟩)
  refine ⟨fun X hX => ⟨?_, ?_⟩, fun Y hY => ⟨?_, ?_⟩⟩
  · rw [ht, lookupTag_renameSet_ne _ _ _ _ (by decide) (by decide), lookupTag_renameSet]
    simp
  · rw [het, lookupTag_renameSet_ne _ _ _ _ (by decide) (by decide), htt,
      lookupTag_renameSet, if_neg (exported_ne_self "target"), if_pos rfl, hX]
  · rw [hmo, lookupTag_renameSet]
    simp
  · rw [hem, htm, lookupTag_renameSet, if_neg (exported_ne_self "module"), if_pos rfl,
      lookupTag_renameSet_ne _ _ _ _ (by decide) (by decide), hY]

/-- Witness for C6's amended theorem at tags `target=x0, module=y0` and a
context with no labels. -/
theorem C6_amended_witness :
    lookupTag (enrichTags [("target", "x0"), ("module", "y0")]
        ⟨"T", "M", ⟨none, none, none, none, none, none, []⟩⟩) "target" = some "T" ∧
    lookupTag (enrichTags [("target", "x0"), ("module", "y0")]
        ⟨"T", "M", ⟨none, none, none, none, none, none, []⟩⟩) "exported_target"
      = some "x0" ∧
    lookupTag (enrichTags [("target", "x0"), ("module", "y0")]
        ⟨"T", "M", ⟨none, none, none, none, none, none, []⟩⟩) "module" = some "M" ∧
    lookupTag (enrichTags [("target", "x0"), ("module", "y0")]
        ⟨"T", "M", ⟨none, none, none, none, none, none, []⟩⟩) "exported_module"
      = some "y0" := by
  have h := C6_amended [("target", "x0"), ("module", "y0")]
    ⟨"T", "M", ⟨none, none, none, none, none, none, []⟩⟩ (by simp)
  exact ⟨(h.1 "x0" (by decide)).1, (h.1 "x0" (by decide)).2,
    (h.2 "y0" (by decide)).1, (h.2 "y0" (by decide)).2⟩

/-- C8, confirmed: (i) for every measurement and context, any tag key outside
`target`, `module`, the six predefined keys, the custom keys and their
`exported_*` counterparts keeps its original value (so no other key is ever
added or removed); (ii) the concrete scenario: tags `{instance: s1}` with
context target `t1`, module `m1` and no labels end as exactly
`{instance: s1, target: t1, module: m1}`. -/
theorem C8_frame :
    (∀ (m : TagMap) (ctx : BlackboxExporterContext) (k : String),
      k ∉ touchedKeys ctx → lookupTag (enrichTags m ctx) k = lookupTag m k) ∧
    (lookupTag (enrichTags [("instance", "s1")]
        ⟨"t1", "m1", ⟨none, none, none, none, none, none, []⟩⟩) "instance" = some "s1" ∧
     lookupTag (enrichTags [("instance", "s1")]
        ⟨"t1", "m1", ⟨none, none, none, none, none, none, []⟩⟩) "target" = some "t1" ∧
     lookupTag (enrichTags [("instance", "s1")]
        ⟨"t1", "m1", ⟨none, none, none, none, none, none, []⟩⟩) "module" = some "m1" ∧
     List.Perm ((enrichTags [("instance", "s1")]
        ⟨"t1", "m1", ⟨none, none, none, none, none, none, []⟩⟩).map Prod.fst)
       ["instance", "target", "module"]) := by
  constructor
  · intro m ctx k hk
    simp only [touchedKeys, List.mem_append, not_or] at hk
    obtain ⟨⟨⟨⟨h1, h2⟩, h3⟩, h4⟩, h5⟩ := hk
    simp only [List.mem_cons, List.not_mem_nil, or_false, not_or] at h1
    obtain ⟨e1, e2, e3, e4⟩ := h1
    have hpre : ∀ k' ∈ predefKeys, k ≠ k' ∧ k ≠ "exported_" ++ k' := by
      intro k' hk'
      refine ⟨fun h => h2 (h ▸ hk'), fun h => h3 (List.mem_map.mpr ⟨k', hk', h.symm⟩)⟩
    have hcust : ∀ p ∈ ctx.optionalLabels.custom, p.2 ≠ "" →
        k ≠ p.1 ∧ k ≠ "exported_" ++ p.1 := by
      intro p hp _
      refine ⟨fun h => h4 (List.mem_map.mpr ⟨p, hp, h.symm⟩),
        fun h => h5 (List.mem_map.mpr ⟨p, hp, h.symm⟩)⟩
    rw [enrich_frame_to_tm m ctx k hpre hcust, lookupTag_renameSet2_ne m _ _ k e1 e3 e2 e4]
  · exact ⟨by decide, by decide, by decide, by decide⟩

/-- Witness for C8's frame part at key `instance`. -/
theorem C8_frame_witness :
    lookupTag (enrichTags [("instance", "s1")]
        ⟨"t1", "m1", ⟨none, none, none, none, none, none, []⟩⟩) "instance"
      = lookupTag [("instance", "s1")] "instance" :=
  C8_frame.1 [("instance", "s1")]
    ⟨"t1", "m1", ⟨none, none, none, none, none, none, []⟩⟩ "instance" (by decide)

theorem lookupTag_optFold_last_adhoc (l₁ l₂ : List (String × Option String))
    (k r a : String) (m : TagMap) (hr : r ≠ "") (ha : a ≠ "")
    (h₂ : ∀ p ∈ l₂, p.1 ≠ k ∧ k ≠ "exported_" ++ p.1) :
    lookupTag (optFold (l₁ ++ (k, some r) :: (l₂ ++ [(k, some a)])) m) k = some a ∧
    lookupTag (optFold (l₁ ++ (k, some r) :: (l₂ ++ [(k, some a)])) m)
        ("exported_" ++ k) = some r := by
  rw [optFold_append, optFold_cons, optFold_append, optFold_cons, optFold_nil]
  rw [show addOptionalLabel (optFold l₁ m) k (some r) = renameSet (optFold l₁ m) k r by
    simp [addOptionalLabel, hr]]
  rw [show addOptionalLabel (optFold l₂ (renameSet (optFold l₁ m) k r)) k (some a)
      = renameSet (optFold l₂ (renameSet (optFold l₁ m) k r)) k a by
    simp [addOptionalLabel, ha]]
  have hXk : lookupTag (optFold l₂ (renameSet (optFold l₁ m) k r)) k = some r := by
    rw [lookupTag_optFold_ne l₂ _ k
      (fun p hp w hw hww => ⟨fun h => (h₂ p hp).1 h.symm, (h₂ p hp).2⟩),
      lookupTag_renameSet]
    simp
  constructor
  · rw [lookupTag_renameSet]
    simp
  · rw [lookupTag_renameSet, if_neg (exported_ne_self k), if_pos rfl, hXk]

/-- C5, counterexample: with a pre-existing `region=orig` tag, predefined
`region=Some("AMER")` and ad-hoc labels `{region: adhoc, exported_region:
boom}` iterated in that order, the final `exported_region` tag is `boom`, not
the predefined value `AMER` — the later ad-hoc entry keyed `exported_region`
overwrites it. -/
theorem C5_counterexample :
    lookupTag (enrichTags [("region", "orig")]
        ⟨"T", "M", ⟨none, some "AMER", none, none, none, none,
          [("region", "adhoc"), ("exported_region", "boom")]⟩⟩)
        ("exported_" ++ "region") ≠ some "AMER" ∧
    lookupTag (enrichTags [("region", "orig")]
        ⟨"T", "M", ⟨none, some "AMER", none, none, none, none,
          [("region", "adhoc"), ("exported_region", "boom")]⟩⟩)
        ("exported_" ++ "region") = some "boom" := by decide

/-- C5, amended: when an ad-hoc custom label `(k, a)` (`a` nonempty) matches
a predefined label key `k` configured non-empty, after enrichment the tag
under `k` holds the ad-hoc value, and — if the measurement had a pre-existing
tag under `k` — the final `exported_<k>` tag holds the predefined label's
value, provided no other custom label with a nonempty value is keyed `k` and
no custom label with a nonempty value keyed `exported_<k>` is iterated after
the ad-hoc one (the custom map is split as `c₁ ++ (k, a) :: c₂` in iteration
order). -/
theorem C5_adhoc_wins (m : TagMap) (ctx : BlackboxExporterContext) (k r a : String)
    (c₁ c₂ : List (String × String))
    (hmem : (k, some r) ∈ preList ctx.optionalLabels)
    (hcustom : ctx.optionalLabels.custom = c₁ ++ (k, a) :: c₂)
    (hr : r ≠ "") (ha : a ≠ "")
    (hc₁ : ∀ p ∈ c₁, p.2 ≠ "" → p.1 ≠ k)
    (hc₂ : ∀ p ∈ c₂, p.2 ≠ "" → p.1 ≠ k ∧ p.1 ≠ "exported_" ++ k) :
    lookupTag (enrichTags m ctx) k = some a ∧
    (∀ x, lookupTag m k = some x →
      lookupTag (enrichTags m ctx) ("exported_" ++ k) = some r) := by
  simp only [preList, List.mem_cons, List.not_mem_nil, or_false, Prod.mk.injEq] at hmem
  rcases hmem with hmem | hmem | hmem | hmem | hmem | hmem
  · obtain ⟨rfl, hv⟩ := hmem
    have hframe₁ : ∀ p ∈ c₁.map (fun p => (p.1, some p.2)),
        ∀ w, p.2 = some w → w ≠ "" →
          "geohash" ≠ p.1 ∧ "geohash" ≠ "exported_" ++ p.1 := by
      intro p hp w hw hww
      obtain ⟨c, hc, rfl⟩ := List.mem_map.mp hp
      simp only at hw
      obtain rfl : c.2 = w := Option.some.inj hw
      exact ⟨fun h => hc₁ c hc hww h.symm, ne_exported_of_short (by decide) c.1⟩
    have h₂pre : ∀ p ∈ [("region", ctx.optionalLabels.region), ("location", ctx.optionalLabels.location), ("country", ctx.optionalLabels.country), ("name", ctx.optionalLabels.name), ("provider", ctx.optionalLabels.provider)], ∀ w, p.2 = some w → w ≠ "" →
        p.1 ≠ "geohash" ∧ p.1 ≠ "exported_" ++ "geohash" ∧ "geohash" ≠ "exported_" ++ p.1 := by
      intro p hp w hw hww
      fin_cases hp <;> exact ⟨by simp, by simp, by simp⟩
    have h₂ : ∀ p ∈ c₂.map (fun p => (p.1, some p.2)),
        ∀ w, p.2 = some w → w ≠ "" →
          p.1 ≠ "geohash" ∧ p.1 ≠ "exported_" ++ "geohash" ∧ "geohash" ≠ "exported_" ++ p.1 := by
      intro p hp w hw hww
      obtain ⟨c, hc, rfl⟩ := List.mem_map.mp hp
      simp only at hw
      obtain rfl : c.2 = w := Option.some.inj hw
      exact ⟨(hc₂ c hc hww).1, (hc₂ c hc hww).2, ne_exported_of_short (by decide) c.1⟩
    have hL : preList ctx.optionalLabels
        ++ ctx.optionalLabels.custom.map (fun p => (p.1, some p.2))
        = ((([] : List (String × Option String)) ++ ("geohash", some r) :: [("region", ctx.optionalLabels.region), ("location", ctx.optionalLabels.location), ("country", ctx.optionalLabels.country), ("name", ctx.optionalLabels.name), ("provider", ctx.optionalLabels.provider)])
            ++ c₁.map (fun p => (p.1, some p.2)))
          ++ ("geohash", some a) :: c₂.map (fun p => (p.1, some p.2)) := by
      rw [hcustom]
      simp [preList, ← hv, List.append_assoc]
    have hstep := lookupTag_optFold_step
      ((([] : List (String × Option String)) ++ ("geohash", some r) :: [("region", ctx.optionalLabels.region), ("location", ctx.optionalLabels.location), ("country", ctx.optionalLabels.country), ("name", ctx.optionalLabels.name), ("provider", ctx.optionalLabels.provider)])
        ++ c₁.map (fun p => (p.1, some p.2)))
      (c₂.map (fun p => (p.1, some p.2))) "geohash" a
      (renameSet (renameSet m "target" ctx.target) "module" ctx.module) ha h₂
    have hinner : lookupTag (optFold
        ((([] : List (String × Option String)) ++ ("geohash", some r) :: [("region", ctx.optionalLabels.region), ("location", ctx.optionalLabels.location), ("country", ctx.optionalLabels.country), ("name", ctx.optionalLabels.name), ("provider", ctx.optionalLabels.provider)])
          ++ c₁.map (fun p => (p.1, some p.2)))
        (renameSet (renameSet m "target" ctx.target) "module" ctx.module)) "geohash"
        = some r := by
      rw [optFold_append, lookupTag_optFold_ne _ _ "geohash" hframe₁]
      exact (lookupTag_optFold_step ([] : List (String × Option String)) [("region", ctx.optionalLabels.region), ("location", ctx.optionalLabels.location), ("country", ctx.optionalLabels.country), ("name", ctx.optionalLabels.name), ("provider", ctx.optionalLabels.provider)] "geohash" r
        (renameSet (renameSet m "target" ctx.target) "module" ctx.module) hr h₂pre).1
    refine ⟨?_, fun x hx => ?_⟩
    · rw [enrichTags_eq, hL]
      exact hstep.1
    · rw [enrichTags_eq, hL, hstep.2, hinner]
  · obtain ⟨rfl, hv⟩ := hmem
    have hframe₁ : ∀ p ∈ c₁.map (fun p => (p.1, some p.2)),
        ∀ w, p.2 = some w → w ≠ "" →
          "region" ≠ p.1 ∧ "region" ≠ "exported_" ++ p.1 := by
      intro p hp w hw hww
      obtain ⟨c, hc, rfl⟩ := List.mem_map.mp hp
      simp only at hw
      obtain rfl : c.2 = w := Option.some.inj hw
      exact ⟨fun h => hc₁ c hc hww h.symm, ne_exported_of_short (by decide) c.1⟩
    have h₂pre : ∀ p ∈ [("location", ctx.optionalLabels.location), ("country", ctx.optionalLabels.country), ("name", ctx.optionalLabels.name), ("provider", ctx.optionalLabels.provider)], ∀ w, p.2 = some w → w ≠ "" →
        p.1 ≠ "region" ∧ p.1 ≠ "exported_" ++ "region" ∧ "region" ≠ "exported_" ++ p.1 := by
      intro p hp w hw hww
      fin_cases hp <;> exact ⟨by simp, by simp, by simp⟩
    have h₂ : ∀ p ∈ c₂.map (fun p => (p.1, some p.2)),
        ∀ w, p.2 = some w → w ≠ "" →
          p.1 ≠ "region" ∧ p.1 ≠ "exported_" ++ "region" ∧ "region" ≠ "exported_" ++ p.1 := by
      intro p hp w hw hww
      obtain ⟨c, hc, rfl⟩ := List.mem_map.mp hp
      simp only at hw
      obtain rfl : c.2 = w := Option.some.inj hw
      exact ⟨(hc₂ c hc hww).1, (hc₂ c hc hww).2, ne_exported_of_short (by decide) c.1⟩
    have hL : preList ctx.optionalLabels
        ++ ctx.optionalLabels.custom.map (fun p => (p.1, some p.2))
        = (([("geohash", ctx.optionalLabels.geohash)] ++ ("region", some r) :: [("location", ctx.optionalLabels.location), ("country", ctx.optionalLabels.country), ("name", ctx.optionalLabels.name), ("provider", ctx.optionalLabels.provider)])
            ++ c₁.map (fun p => (p.1, some p.2)))
          ++ ("region", some a) :: c₂.map (fun p => (p.1, some p.2)) := by
      rw [hcustom]
      simp [preList, ← hv, List.append_assoc]
    have hstep := lookupTag_optFold_step
      (([("geohash", ctx.optionalLabels.geohash)] ++ ("region", some r) :: [("location", ctx.optionalLabels.location), ("country", ctx.optionalLabels.country), ("name", ctx.optionalLabels.name), ("provider", ctx.optionalLabels.provider)])
        ++ c₁.map (fun p => (p.1, some p.2)))
      (c₂.map (fun p => (p.1, some p.2))) "region" a
      (renameSet (renameSet m "target" ctx.target) "module" ctx.module) ha h₂
    have hinner : lookupTag (optFold
        (([("geohash", ctx.optionalLabels.geohash)] ++ ("region", some r) :: [("location", ctx.optionalLabels.location), ("country", ctx.optionalLabels.country), ("name", ctx.optionalLabels.name), ("provider", ctx.optionalLabels.provider)])
          ++ c₁.map (fun p => (p.1, some p.2)))
        (renameSet (renameSet m "target" ctx.target) "module" ctx.module)) "region"
        = some r := by
      rw [optFold_append, lookupTag_optFold_ne _ _ "region" hframe₁]
      exact (lookupTag_optFold_step [("geohash", ctx.optionalLabels.geohash)] [("location", ctx.optionalLabels.location), ("country", ctx.optionalLabels.country), ("name", ctx.optionalLabels.name), ("provider", ctx.optionalLabels.provider)] "region" r
        (renameSet (renameSet m "target" ctx.target) "module" ctx.module) hr h₂pre).1
    refine ⟨?_, fun x hx => ?_⟩
    · rw [enrichTags_eq, hL]
      exact hstep.1
    · rw [enrichTags_eq, hL, hstep.2, hinner]
  · obtain ⟨rfl, hv⟩ := hmem
    have hframe₁ : ∀ p ∈ c₁.map (fun p => (p.1, some p.2)),
        ∀ w, p.2 = some w → w ≠ "" →
          "location" ≠ p.1 ∧ "location" ≠ "exported_" ++ p.1 := by
      intro p hp w hw hww
      obtain ⟨c, hc, rfl⟩ := List.mem_map.mp hp
      simp only at hw
      obtain rfl : c.2 = w := Option.some.inj hw
      exact ⟨fun h => hc₁ c hc hww h.symm, ne_exported_of_short (by decide) c.1⟩
    have h₂pre : ∀ p ∈ [("country", ctx.optionalLabels.country), ("name", ctx.optionalLabels.name), ("provider", ctx.optionalLabels.provider)], ∀ w, p.2 = some w → w ≠ "" →
        p.1 ≠ "location" ∧ p.1 ≠ "exported_" ++ "location" ∧ "location" ≠ "exported_" ++ p.1 := by
      intro p hp w hw hww
      fin_cases hp <;> exact ⟨by simp, by simp, by simp⟩
    have h₂ : ∀ p ∈ c₂.map (fun p => (p.1, some p.2)),
        ∀ w, p.2 = some w → w ≠ "" →
          p.1 ≠ "location" ∧ p.1 ≠ "exported_" ++ "location" ∧ "location" ≠ "exported_" ++ p.1 := by
      intro p hp w hw hww
      obtain ⟨c, hc, rfl⟩ := List.mem_map.mp hp
      simp only at hw
      obtain rfl : c.2 = w := Option.some.inj hw
      exact ⟨(hc₂ c hc hww).1, (hc₂ c hc hww).2, ne_exported_of_short (by decide) c.1⟩
    have hL : preList ctx.optionalLabels
        ++ ctx.optionalLabels.custom.map (fun p => (p.1, some p.2))
        = (([("geohash", ctx.optionalLabels.geohash), ("region", ctx.optionalLabels.region)] ++ ("location", some r) :: [("country", ctx.optionalLabels.country), ("name", ctx.optionalLabels.name), ("provider", ctx.optionalLabels.provider)])
            ++ c₁.map (fun p => (p.1, some p.2)))
          ++ ("location", some a) :: c₂.map (fun p => (p.1, some p.2)) := by
      rw [hcustom]
      simp [preList, ← hv, List.append_assoc]
    have hstep := lookupTag_optFold_step
      (([("geohash", ctx.optionalLabels.geohash), ("region", ctx.optionalLabels.region)] ++ ("location", some r) :: [("country", ctx.optionalLabels.country), ("name", ctx.optionalLabels.name), ("provider", ctx.optionalLabels.provider)])
        ++ c₁.map (fun p => (p.1, some p.2)))
      (c₂.map (fun p => (p.1, some p.2))) "location" a
      (renameSet (renameSet m "target" ctx.target) "module" ctx.module) ha h₂
    have hinner : lookupTag (optFold
        (([("geohash", ctx.optionalLabels.geohash), ("region", ctx.optionalLabels.region)] ++ ("location", some r) :: [("country", ctx.optionalLabels.country), ("name", ctx.optionalLabels.name), ("provider", ctx.optionalLabels.provider)])
          ++ c₁.map (fun p => (p.1, some p.2)))
        (renameSet (renameSet m "target" ctx.target) "module" ctx.module)) "location"
        = some r := by
      rw [optFold_append, lookupTag_optFold_ne _ _ "location" hframe₁]
      exact (lookupTag_optFold_step [("geohash", ctx.optionalLabels.geohash), ("region", ctx.optionalLabels.region)] [("country", ctx.optionalLabels.country), ("name", ctx.optionalLabels.name), ("provider", ctx.optionalLabels.provider)] "location" r
        (renameSet (renameSet m "target" ctx.target) "module" ctx.module) hr h₂pre).1
    refine ⟨?_, fun x hx => ?_⟩
    · rw [enrichTags_eq, hL]
      exact hstep.1
    · rw [enrichTags_eq, hL, hstep.2, hinner]
  · obtain ⟨rfl, hv⟩ := hmem
    have hframe₁ : ∀ p ∈ c₁.map (fun p => (p.1, some p.2)),
        ∀ w, p.2 = some w → w ≠ "" →
          "country" ≠ p.1 ∧ "country" ≠ "exported_" ++ p.1 := by
      intro p hp w hw hww
      obtain ⟨c, hc, rfl⟩ := List.mem_map.mp hp
      simp only at hw
      obtain rfl : c.2 = w := Option.some.inj hw
      exact ⟨fun h => hc₁ c hc hww h.symm, ne_exported_of_short (by decide) c.1⟩
    have h₂pre : ∀ p ∈ [("name", ctx.optionalLabels.name), ("provider", ctx.optionalLabels.provider)], ∀ w, p.2 = some w → w ≠ "" →
        p.1 ≠ "country" ∧ p.1 ≠ "exported_" ++ "country" ∧ "country" ≠ "exported_" ++ p.1 := by
      intro p hp w hw hww
      fin_cases hp <;> exact ⟨by simp, by simp, by simp⟩
    have h₂ : ∀ p ∈ c₂.map (fun p => (p.1, some p.2)),
        ∀ w, p.2 = some w → w ≠ "" →
          p.1 ≠ "country" ∧ p.1 ≠ "exported_" ++ "country" ∧ "country" ≠ "exported_" ++ p.1 := by
      intro p hp w hw hww
      obtain ⟨c, hc, rfl⟩ := List.mem_map.mp hp
      simp only at hw
      obtain rfl : c.2 = w := Option.some.inj hw
      exact ⟨(hc₂ c hc hww).1, (hc₂ c hc hww).2, ne_exported_of_short (by decide) c.1⟩
    have hL : preList ctx.optionalLabels
        ++ ctx.optionalLabels.custom.map (fun p => (p.1, some p.2))
        = (([("geohash", ctx.optionalLabels.geohash), ("region", ctx.optionalLabels.region), ("location", ctx.optionalLabels.location)] ++ ("country", some r) :: [("name", ctx.optionalLabels.name), ("provider", ctx.optionalLabels.provider)])
            ++ c₁.map (fun p => (p.1, some p.2)))
          ++ ("country", some a) :: c₂.map (fun p => (p.1, some p.2)) := by
      rw [hcustom]
      simp [preList, ← hv, List.append_assoc]
    have hstep := lookupTag_optFold_step
      (([("geohash", ctx.optionalLabels.geohash), ("region", ctx.optionalLabels.region), ("location", ctx.optionalLabels.location)] ++ ("country", some r) :: [("name", ctx.optionalLabels.name), ("provider", ctx.optionalLabels.provider)])
        ++ c₁.map (fun p => (p.1, some p.2)))
      (c₂.map (fun p => (p.1, some p.2))) "country" a
      (renameSet (renameSet m "target" ctx.target) "module" ctx.module) ha h₂
    have hinner : lookupTag (optFold
        (([("geohash", ctx.optionalLabels.geohash), ("region", ctx.optionalLabels.region), ("location", ctx.optionalLabels.location)] ++ ("country", some r) :: [("name", ctx.optionalLabels.name), ("provider", ctx.optionalLabels.provider)])
          ++ c₁.map (fun p => (p.1, some p.2)))
        (renameSet (renameSet m "target" ctx.target) "module" ctx.module)) "country"
        = some r := by
      rw [optFold_append, lookupTag_optFold_ne _ _ "country" hframe₁]
      exact (lookupTag_optFold_step [("geohash", ctx.optionalLabels.geohash), ("region", ctx.optionalLabels.region), ("location", ctx.optionalLabels.location)] [("name", ctx.optionalLabels.name), ("provider", ctx.optionalLabels.provider)] "country" r
        (renameSet (renameSet m "target" ctx.target) "module" ctx.module) hr h₂pre).1
    refine ⟨?_, fun x hx => ?_⟩
    · rw [enrichTags_eq, hL]
      exact hstep.1
    · rw [enrichTags_eq, hL, hstep.2, hinner]
  · obtain ⟨rfl, hv⟩ := hmem
    have hframe₁ : ∀ p ∈ c₁.map (fun p => (p.1, some p.2)),
        ∀ w, p.2 = some w → w ≠ "" →
          "name" ≠ p.1 ∧ "name" ≠ "exported_" ++ p.1 := by
      intro p hp w hw hww
      obtain ⟨c, hc, rfl⟩ := List.mem_map.mp hp
      simp only at hw
      obtain rfl : c.2 = w := Option.some.inj hw
      exact ⟨fun h => hc₁ c hc hww h.symm, ne_exported_of_short (by decide) c.1⟩
    have h₂pre : ∀ p ∈ [("provider", ctx.optionalLabels.provider)], ∀ w, p.2 = some w → w ≠ "" →
        p.1 ≠ "name" ∧ p.1 ≠ "exported_" ++ "name" ∧ "name" ≠ "exported_" ++ p.1 := by
      intro p hp w hw hww
      fin_cases hp <;> exact ⟨by simp, by simp, by simp⟩
    have h₂ : ∀ p ∈ c₂.map (fun p => (p.1, some p.2)),
        ∀ w, p.2 = some w → w ≠ "" →
          p.1 ≠ "name" ∧ p.1 ≠ "exported_" ++ "name" ∧ "name" ≠ "exported_" ++ p.1 := by
      intro p hp w hw hww
      obtain ⟨c, hc, rfl⟩ := List.mem_map.mp hp
      simp only at hw
      obtain rfl : c.2 = w := Option.some.inj hw
      exact ⟨(hc₂ c hc hww).1, (hc₂ c hc hww).2, ne_exported_of_short (by decide) c.1⟩
    have hL : preList ctx.optionalLabels
        ++ ctx.optionalLabels.custom.map (fun p => (p.1, some p.2))
        = (([("geohash", ctx.optionalLabels.geohash), ("region", ctx.optionalLabels.region), ("location", ctx.optionalLabels.location), ("country", ctx.optionalLabels.country)] ++ ("name", some r) :: [("provider", ctx.optionalLabels.provider)])
            ++ c₁.map (fun p => (p.1, some p.2)))
          ++ ("name", some a) :: c₂.map (fun p => (p.1, some p.2)) := by
      rw [hcustom]
      simp [preList, ← hv, List.append_assoc]
    have hstep := lookupTag_optFold_step
      (([("geohash", ctx.optionalLabels.geohash), ("region", ctx.optionalLabels.region), ("location", ctx.optionalLabels.location), ("country", ctx.optionalLabels.country)] ++ ("name", some r) :: [("provider", ctx.optionalLabels.provider)])
        ++ c₁.map (fun p => (p.1, some p.2)))
      (c₂.map (fun p => (p.1, some p.2))) "name" a
      (renameSet (renameSet m "target" ctx.target) "module" ctx.module) ha h₂
    have hinner : lookupTag (optFold
        (([("geohash", ctx.optionalLabels.geohash), ("region", ctx.optionalLabels.region), ("location", ctx.optionalLabels.location), ("country", ctx.optionalLabels.country)] ++ ("name", some r) :: [("provider", ctx.optionalLabels.provider)])
          ++ c₁.map (fun p => (p.1, some p.2)))
        (renameSet (renameSet m "target" ctx.target) "module" ctx.module)) "name"
        = some r := by
      rw [optFold_append, lookupTag_optFold_ne _ _ "name" hframe₁]
      exact (lookupTag_optFold_step [("geohash", ctx.optionalLabels.geohash), ("region", ctx.optionalLabels.region), ("location", ctx.optionalLabels.location), ("country", ctx.optionalLabels.country)] [("provider", ctx.optionalLabels.provider)] "name" r
        (renameSet (renameSet m "target" ctx.target) "module" ctx.module) hr h₂pre).1
    refine ⟨?_, fun x hx => ?_⟩
    · rw [enrichTags_eq, hL]
      exact hstep.1
    · rw [enrichTags_eq, hL, hstep.2, hinner]
  · obtain ⟨rfl, hv⟩ := hmem
    have hframe₁ : ∀ p ∈ c₁.map (fun p => (p.1, some p.2)),
        ∀ w, p.2 = some w → w ≠ "" →
          "provider" ≠ p.1 ∧ "provider" ≠ "exported_" ++ p.1 := by
      intro p hp w hw hww
      obtain ⟨c, hc, rfl⟩ := List.mem_map.mp hp
      simp only at hw
      obtain rfl : c.2 = w := Option.some.inj hw
      exact ⟨fun h => hc₁ c hc hww h.symm, ne_exported_of_short (by decide) c.1⟩
    have h₂pre : ∀ p ∈ ([] : List (String × Option String)), ∀ w, p.2 = some w → w ≠ "" →
        p.1 ≠ "provider" ∧ p.1 ≠ "exported_" ++ "provider" ∧ "provider" ≠ "exported_" ++ p.1 := by
      intro p hp w hw hww
      fin_cases hp <;> exact ⟨by simp, by simp, by simp⟩
    have h₂ : ∀ p ∈ c₂.map (fun p => (p.1, some p.2)),
        ∀ w, p.2 = some w → w ≠ "" →
          p.1 ≠ "provider" ∧ p.1 ≠ "exported_" ++ "provider" ∧ "provider" ≠ "exported_" ++ p.1 := by
      intro p hp w hw hww
      obtain ⟨c, hc, rfl⟩ := List.mem_map.mp hp
      simp only at hw
      obtain rfl : c.2 = w := Option.some.inj hw
      exact ⟨(hc₂ c hc hww).1, (hc₂ c hc hww).2, ne_exported_of_short (by decide) c.1⟩
    have hL : preList ctx.optionalLabels
        ++ ctx.optionalLabels.custom.map (fun p => (p.1, some p.2))
        = (([("geohash", ctx.optionalLabels.geohash), ("region", ctx.optionalLabels.region), ("location", ctx.optionalLabels.location), ("country", ctx.optionalLabels.country), ("name", ctx.optionalLabels.name)] ++ ("provider", some r) :: ([] : List (String × Option String)))
            ++ c₁.map (fun p => (p.1, some p.2)))
          ++ ("provider", some a) :: c₂.map (fun p => (p.1, some p.2)) := by
      rw [hcustom]
      simp [preList, ← hv, List.append_assoc]
    have hstep := lookupTag_optFold_step
      (([("geohash", ctx.optionalLabels.geohash), ("region", ctx.optionalLabels.region), ("location", ctx.optionalLabels.location), ("country", ctx.optionalLabels.country), ("name", ctx.optionalLabels.name)] ++ ("provider", some r) :: ([] : List (String × Option String)))
        ++ c₁.map (fun p => (p.1, some p.2)))
      (c₂.map (fun p => (p.1, some p.2))) "provider" a
      (renameSet (renameSet m "target" ctx.target) "module" ctx.module) ha h₂
    have hinner : lookupTag (optFold
        (([("geohash", ctx.optionalLabels.geohash), ("region", ctx.optionalLabels.region), ("location", ctx.optionalLabels.location), ("country", ctx.optionalLabels.country), ("name", ctx.optionalLabels.name)] ++ ("provider", some r) :: ([] : List (String × Option String)))
          ++ c₁.map (fun p => (p.1, some p.2)))
        (renameSet (renameSet m "target" ctx.target) "module" ctx.module)) "provider"
        = some r := by
      rw [optFold_append, lookupTag_optFold_ne _ _ "provider" hframe₁]
      exact (lookupTag_optFold_step [("geohash", ctx.optionalLabels.geohash), ("region", ctx.optionalLabels.region), ("location", ctx.optionalLabels.location), ("country", ctx.optionalLabels.country), ("name", ctx.optionalLabels.name)] ([] : List (String × Option String)) "provider" r
        (renameSet (renameSet m "target" ctx.target) "module" ctx.module) hr h₂pre).1
    refine ⟨?_, fun x hx => ?_⟩
    · rw [enrichTags_eq, hL]
      exact hstep.1
    · rw [enrichTags_eq, hL, hstep.2, hinner]

/-- Witness for C5: predefined `region=AMER`, ad-hoc labels
`{region: adhoc, env: prod}`, measurement tag `region=orig`. -/
theorem C5_adhoc_wins_witness :
    lookupTag (enrichTags [("region", "orig")]
        ⟨"T", "M", ⟨none, some "AMER", none, none, none, none,
          [("region", "adhoc"), ("env", "prod")]⟩⟩) "region" = some "adhoc" ∧
    lookupTag (enrichTags [("region", "orig")]
        ⟨"T", "M", ⟨none, some "AMER", none, none, none, none,
          [("region", "adhoc"), ("env", "prod")]⟩⟩)
        ("exported_" ++ "region") = some "AMER" := by
  have h := C5_adhoc_wins [("region", "orig")]
    ⟨"T", "M", ⟨none, some "AMER", none, none, none, none,
      [("region", "adhoc"), ("env", "prod")]⟩⟩
    "region" "AMER" "adhoc" [] [("env", "prod")]
    (by simp [preList]) rfl (by decide) (by decide) (by simp)
    (by intro p hp hpe; fin_cases hp <;> exact ⟨by simp, by simp⟩)
  exact ⟨h.1, h.2 "orig" (by decide)⟩


theorem not_some_of_none_or_empty {o : Option String} {w : String}
    (ho : o = none ∨ o = some "") (hw : w ≠ "") : o ≠ some w := by
  rcases ho with rfl | rfl
  · simp
  · intro h
    exact hw (Option.some.inj h).symm

/-- C7, amended: for each predefined optional label (geohash, region,
location, country, name, provider), provided no custom label with a nonempty
value is keyed `<key>` or `exported_<key>`: if the field is `some v` with
`v ≠ ""`, enrichment sets the key to `v`, renames an existing tag of that key
to `exported_<key>`, and leaves `exported_<key>` untouched when no tag of
that key existed; if the field is `none` or `some ""`, enrichment touches
neither `<key>` nor `exported_<key>`. -/
theorem C7_predefined (m : TagMap) (ctx : BlackboxExporterContext) (k : String)
    (ov : Option String) (hmem : (k, ov) ∈ preList ctx.optionalLabels)
    (hcust : ∀ p ∈ ctx.optionalLabels.custom, p.2 ≠ "" →
      p.1 ≠ k ∧ p.1 ≠ "exported_" ++ k) :
    (∀ v, ov = some v → v ≠ "" →
      lookupTag (enrichTags m ctx) k = some v ∧
      (∀ old, lookupTag m k = some old →
        lookupTag (enrichTags m ctx) ("exported_" ++ k) = some old) ∧
      (lookupTag m k = none →
        lookupTag (enrichTags m ctx) ("exported_" ++ k)
          = lookupTag m ("exported_" ++ k))) ∧
    ((ov = none ∨ ov = some "") →
      lookupTag (enrichTags m ctx) k = lookupTag m k ∧
      lookupTag (enrichTags m ctx) ("exported_" ++ k)
        = lookupTag m ("exported_" ++ k)) := by
  simp only [preList, List.mem_cons, List.not_mem_nil, or_false, Prod.mk.injEq] at hmem
  rcases hmem with hmem | hmem | hmem | hmem | hmem | hmem
  · obtain ⟨rfl, hv⟩ := hmem
    constructor
    · intro v hov hvne
      have hreg : ctx.optionalLabels.geohash = some v := by rw [← hv, hov]
      have hL : preList ctx.optionalLabels
          ++ ctx.optionalLabels.custom.map (fun p => (p.1, some p.2))
          = ([] : List (String × Option String)) ++ ("geohash", some v)
            :: ([("region", ctx.optionalLabels.region), ("location", ctx.optionalLabels.location), ("country", ctx.optionalLabels.country), ("name", ctx.optionalLabels.name), ("provider", ctx.optionalLabels.provider)] ++ ctx.optionalLabels.custom.map (fun p => (p.1, some p.2))) := by
        simp [preList, hreg]
      have h₂ : ∀ p ∈ [("region", ctx.optionalLabels.region), ("location", ctx.optionalLabels.location), ("country", ctx.optionalLabels.country), ("name", ctx.optionalLabels.name), ("provider", ctx.optionalLabels.provider)]
          ++ ctx.optionalLabels.custom.map (fun p => (p.1, some p.2)),
          ∀ w, p.2 = some w → w ≠ "" →
            p.1 ≠ "geohash" ∧ p.1 ≠ "exported_" ++ "geohash" ∧ "geohash" ≠ "exported_" ++ p.1 := by
        intro p hp w hw hww
        rcases List.mem_append.mp hp with hp | hp
        · fin_cases hp <;> exact ⟨by simp, by simp, by simp⟩
        · obtain ⟨c, hc, rfl⟩ := List.mem_map.mp hp
          simp only at hw
          obtain rfl : c.2 = w := Option.some.inj hw
          exact ⟨(hcust c hc hww).1, (hcust c hc hww).2,
            ne_exported_of_short (by decide) c.1⟩
      have hstep := lookupTag_optFold_step ([] : List (String × Option String)) _ "geohash" v
        (renameSet (renameSet m "target" ctx.target) "module" ctx.module) hvne h₂
      have hk0 : lookupTag (optFold ([] : List (String × Option String))
          (renameSet (renameSet m "target" ctx.target) "module" ctx.module)) "geohash"
          = lookupTag m "geohash" := by
        rw [lookupTag_optFold_ne ([] : List (String × Option String)) _ _
            (by intro p hp w hw hww; fin_cases hp <;> exact ⟨by simp, by simp⟩),
          lookupTag_renameSet2_ne _ _ _ _ (by simp) (by simp) (by simp) (by simp)]
      have hexp0 : lookupTag (optFold ([] : List (String × Option String))
          (renameSet (renameSet m "target" ctx.target) "module" ctx.module))
          ("exported_" ++ "geohash") = lookupTag m ("exported_" ++ "geohash") := by
        rw [lookupTag_optFold_ne ([] : List (String × Option String)) _ _
            (by intro p hp w hw hww; fin_cases hp <;> exact ⟨by simp, by simp⟩),
          lookupTag_renameSet2_ne _ _ _ _ (by simp) (by simp) (by simp) (by simp)]
      refine ⟨?_, fun old hold => ?_, fun hnone => ?_⟩
      · rw [enrichTags_eq, hL]
        exact hstep.1
      · rw [enrichTags_eq, hL, hstep.2, hk0, hold]
      · rw [enrichTags_eq, hL, hstep.2, hk0, hnone, hexp0]
    · intro hov0
      have hoveq : ctx.optionalLabels.geohash = none ∨ ctx.optionalLabels.geohash = some "" := by
        rw [← hv]; exact hov0
      have hallk : ∀ p ∈ preList ctx.optionalLabels
          ++ ctx.optionalLabels.custom.map (fun p => (p.1, some p.2)),
          ∀ w, p.2 = some w → w ≠ "" →
            "geohash" ≠ p.1 ∧ "geohash" ≠ "exported_" ++ p.1 := by
        intro p hp w hw hww
        rcases List.mem_append.mp hp with hp | hp
        · simp only [preList, List.mem_cons, List.not_mem_nil, or_false] at hp
          rcases hp with rfl | rfl | rfl | rfl | rfl | rfl
          · exact absurd hw (not_some_of_none_or_empty hoveq hww)
          · exact ⟨by simp, by simp⟩
          · exact ⟨by simp, by simp⟩
          · exact ⟨by simp, by simp⟩
          · exact ⟨by simp, by simp⟩
          · exact ⟨by simp, by simp⟩
        · obtain ⟨c, hc, rfl⟩ := List.mem_map.mp hp
          simp only at hw
          obtain rfl : c.2 = w := Option.some.inj hw
          exact ⟨fun h => (hcust c hc hww).1 h.symm,
            ne_exported_of_short (by decide) c.1⟩
      have halle : ∀ p ∈ preList ctx.optionalLabels
          ++ ctx.optionalLabels.custom.map (fun p => (p.1, some p.2)),
          ∀ w, p.2 = some w → w ≠ "" →
            ("exported_" ++ "geohash") ≠ p.1 ∧
            ("exported_" ++ "geohash") ≠ "exported_" ++ p.1 := by
        intro p hp w hw hww
        rcases List.mem_append.mp hp with hp | hp
        · simp only [preList, List.mem_cons, List.not_mem_nil, or_false] at hp
          rcases hp with rfl | rfl | rfl | rfl | rfl | rfl
          · exact absurd hw (not_some_of_none_or_empty hoveq hww)
          · exact ⟨by simp, by simp⟩
          · exact ⟨by simp, by simp⟩
          · exact ⟨by simp, by simp⟩
          · exact ⟨by simp, by simp⟩
          · exact ⟨by simp, by simp⟩
        · obtain ⟨c, hc, rfl⟩ := List.mem_map.mp hp
          simp only at hw
          obtain rfl : c.2 = w := Option.some.inj hw
          exact ⟨fun h => (hcust c hc hww).2 h.symm,
            fun h => (hcust c hc hww).1 (exported_inj.mp h).symm⟩
      refine ⟨?_, ?_⟩
      · rw [enrichTags_eq, lookupTag_optFold_ne _ _ _ hallk,
          lookupTag_renameSet2_ne _ _ _ _ (by simp) (by simp) (by simp) (by simp)]
      · rw [enrichTags_eq, lookupTag_optFold_ne _ _ _ halle,
          lookupTag_renameSet2_ne _ _ _ _ (by simp) (by simp) (by simp) (by simp)]
  · obtain ⟨rfl, hv⟩ := hmem
    constructor
    · intro v hov hvne
      have hreg : ctx.optionalLabels.region = some v := by rw [← hv, hov]
      have hL : preList ctx.optionalLabels
          ++ ctx.optionalLabels.custom.map (fun p => (p.1, some p.2))
          = [("geohash", ctx.optionalLabels.geohash)] ++ ("region", some v)
            :: ([("location", ctx.optionalLabels.location), ("country", ctx.optionalLabels.country), ("name", ctx.optionalLabels.name), ("provider", ctx.optionalLabels.provider)] ++ ctx.optionalLabels.custom.map (fun p => (p.1, some p.2))) := by
        simp [preList, hreg]
      have h₂ : ∀ p ∈ [("location", ctx.optionalLabels.location), ("country", ctx.optionalLabels.country), ("name", ctx.optionalLabels.name), ("provider", ctx.optionalLabels.provider)]
          ++ ctx.optionalLabels.custom.map (fun p => (p.1, some p.2)),
          ∀ w, p.2 = some w → w ≠ "" →
            p.1 ≠ "region" ∧ p.1 ≠ "exported_" ++ "region" ∧ "region" ≠ "exported_" ++ p.1 := by
        intro p hp w hw hww
        rcases List.mem_append.mp hp with hp | hp
        · fin_cases hp <;> exact ⟨by simp, by simp, by simp⟩
        · obtain ⟨c, hc, rfl⟩ := List.mem_map.mp hp
          simp only at hw
          obtain rfl : c.2 = w := Option.some.inj hw
          exact ⟨(hcust c hc hww).1, (hcust c hc hww).2,
            ne_exported_of_short (by decide) c.1⟩
      have hstep := lookupTag_optFold_step [("geohash", ctx.optionalLabels.geohash)] _ "region" v
        (renameSet (renameSet m "target" ctx.target) "module" ctx.module) hvne h₂
      have hk0 : lookupTag (optFold [("geohash", ctx.optionalLabels.geohash)]
          (renameSet (renameSet m "target" ctx.target) "module" ctx.module)) "region"
          = lookupTag m "region" := by
        rw [lookupTag_optFold_ne [("geohash", ctx.optionalLabels.geohash)] _ _
            (by intro p hp w hw hww; fin_cases hp <;> exact ⟨by simp, by simp⟩),
          lookupTag_renameSet2_ne _ _ _ _ (by simp) (by simp) (by simp) (by simp)]
      have hexp0 : lookupTag (optFold [("geohash", ctx.optionalLabels.geohash)]
          (renameSet (renameSet m "target" ctx.target) "module" ctx.module))
          ("exported_" ++ "region") = lookupTag m ("exported_" ++ "region") := by
        rw [lookupTag_optFold_ne [("geohash", ctx.optionalLabels.geohash)] _ _
            (by intro p hp w hw hww; fin_cases hp <;> exact ⟨by simp, by simp⟩),
          lookupTag_renameSet2_ne _ _ _ _ (by simp) (by simp) (by simp) (by simp)]
      refine ⟨?_, fun old hold => ?_, fun hnone => ?_⟩
      · rw [enrichTags_eq, hL]
        exact hstep.1
      · rw [enrichTags_eq, hL, hstep.2, hk0, hold]
      · rw [enrichTags_eq, hL, hstep.2, hk0, hnone, hexp0]
    · intro hov0
      have hoveq : ctx.optionalLabels.region = none ∨ ctx.optionalLabels.region = some "" := by
        rw [← hv]; exact hov0
      have hallk : ∀ p ∈ preList ctx.optionalLabels
          ++ ctx.optionalLabels.custom.map (fun p => (p.1, some p.2)),
          ∀ w, p.2 = some w → w ≠ "" →
            "region" ≠ p.1 ∧ "region" ≠ "exported_" ++ p.1 := by
        intro p hp w hw hww
        rcases List.mem_append.mp hp with hp | hp
        · simp only [preList, List.mem_cons, List.not_mem_nil, or_false] at hp
          rcases hp with rfl | rfl | rfl | rfl | rfl | rfl
          · exact ⟨by simp, by simp⟩
          · exact absurd hw (not_some_of_none_or_empty hoveq hww)
          · exact ⟨by simp, by simp⟩
          · exact ⟨by simp, by simp⟩
          · exact ⟨by simp, by simp⟩
          · exact ⟨by simp, by simp⟩
        · obtain ⟨c, hc, rfl⟩ := List.mem_map.mp hp
          simp only at hw
          obtain rfl : c.2 = w := Option.some.inj hw
          exact ⟨fun h => (hcust c hc hww).1 h.symm,
            ne_exported_of_short (by decide) c.1⟩
      have halle : ∀ p ∈ preList ctx.optionalLabels
          ++ ctx.optionalLabels.custom.map (fun p => (p.1, some p.2)),
          ∀ w, p.2 = some w → w ≠ "" →
            ("exported_" ++ "region") ≠ p.1 ∧
            ("exported_" ++ "region") ≠ "exported_" ++ p.1 := by
        intro p hp w hw hww
        rcases List.mem_append.mp hp with hp | hp
        · simp only [preList, List.mem_cons, List.not_mem_nil, or_false] at hp
          rcases hp with rfl | rfl | rfl | rfl | rfl | rfl
          · exact ⟨by simp, by simp⟩
          · exact absurd hw (not_some_of_none_or_empty hoveq hww)
          · exact ⟨by simp, by simp⟩
          · exact ⟨by simp, by simp⟩
          · exact ⟨by simp, by simp⟩
          · exact ⟨by simp, by simp⟩
        · obtain ⟨c, hc, rfl⟩ := List.mem_map.mp hp
          simp only at hw
          obtain rfl : c.2 = w := Option.some.inj hw
          exact ⟨fun h => (hcust c hc hww).2 h.symm,
            fun h => (hcust c hc hww).1 (exported_inj.mp h).symm⟩
      refine ⟨?_, ?_⟩
      · rw [enrichTags_eq, lookupTag_optFold_ne _ _ _ hallk,
          lookupTag_renameSet2_ne _ _ _ _ (by simp) (by simp) (by simp) (by simp)]
      · rw [enrichTags_eq, lookupTag_optFold_ne _ _ _ halle,
          lookupTag_renameSet2_ne _ _ _ _ (by simp) (by simp) (by simp) (by simp)]
  · obtain ⟨rfl, hv⟩ := hmem
    constructor
    · intro v hov hvne
      have hreg : ctx.optionalLabels.location = some v := by rw [← hv, hov]
      have hL : preList ctx.optionalLabels
          ++ ctx.optionalLabels.custom.map (fun p => (p.1, some p.2))
          = [("geohash", ctx.optionalLabels.geohash), ("region", ctx.optionalLabels.region)] ++ ("location", some v)
            :: ([("country", ctx.optionalLabels.country), ("name", ctx.optionalLabels.name), ("provider", ctx.optionalLabels.provider)] ++ ctx.optionalLabels.custom.map (fun p => (p.1, some p.2))) := by
        simp [preList, hreg]
      have h₂ : ∀ p ∈ [("country", ctx.optionalLabels.country), ("name", ctx.optionalLabels.name), ("provider", ctx.optionalLabels.provider)]
          ++ ctx.optionalLabels.custom.map (fun p => (p.1, some p.2)),
          ∀ w, p.2 = some w → w ≠ "" →
            p.1 ≠ "location" ∧ p.1 ≠ "exported_" ++ "location" ∧ "location" ≠ "exported_" ++ p.1 := by
        intro p hp w hw hww
        rcases List.mem_append.mp hp with hp | hp
        · fin_cases hp <;> exact ⟨by simp, by simp, by simp⟩
        · obtain ⟨c, hc, rfl⟩ := List.mem_map.mp hp
          simp only at hw
          obtain rfl : c.2 = w := Option.some.inj hw
          exact ⟨(hcust c hc hww).1, (hcust c hc hww).2,
            ne_exported_of_short (by decide) c.1⟩
      have hstep := lookupTag_optFold_step [("geohash", ctx.optionalLabels.geohash), ("region", ctx.optionalLabels.region)] _ "location" v
        (renameSet (renameSet m "target" ctx.target) "module" ctx.module) hvne h₂
      have hk0 : lookupTag (optFold [("geohash", ctx.optionalLabels.geohash), ("region", ctx.optionalLabels.region)]
          (renameSet (renameSet m "target" ctx.target) "module" ctx.module)) "location"
          = lookupTag m "location" := by
        rw [lookupTag_optFold_ne [("geohash", ctx.optionalLabels.geohash), ("region", ctx.optionalLabels.region)] _ _
            (by intro p hp w hw hww; fin_cases hp <;> exact ⟨by simp, by simp⟩),
          lookupTag_renameSet2_ne _ _ _ _ (by simp) (by simp) (by simp) (by simp)]
      have hexp0 : lookupTag (optFold [("geohash", ctx.optionalLabels.geohash), ("region", ctx.optionalLabels.region)]
          (renameSet (renameSet m "target" ctx.target) "module" ctx.module))
          ("exported_" ++ "location") = lookupTag m ("exported_" ++ "location") := by
        rw [lookupTag_optFold_ne [("geohash", ctx.optionalLabels.geohash), ("region", ctx.optionalLabels.region)] _ _
            (by intro p hp w hw hww; fin_cases hp <;> exact ⟨by simp, by simp⟩),
          lookupTag_renameSet2_ne _ _ _ _ (by simp) (by simp) (by simp) (by simp)]
      refine ⟨?_, fun old hold => ?_, fun hnone => ?_⟩
      · rw [enrichTags_eq, hL]
        exact hstep.1
      · rw [enrichTags_eq, hL, hstep.2, hk0, hold]
      · rw [enrichTags_eq, hL, hstep.2, hk0, hnone, hexp0]
    · intro hov0
      have hoveq : ctx.optionalLabels.location = none ∨ ctx.optionalLabels.location = some "" := by
        rw [← hv]; exact hov0
      have hallk : ∀ p ∈ preList ctx.optionalLabels
          ++ ctx.optionalLabels.custom.map (fun p => (p.1, some p.2)),
          ∀ w, p.2 = some w → w ≠ "" →
            "location" ≠ p.1 ∧ "location" ≠ "exported_" ++ p.1 := by
        intro p hp w hw hww
        rcases List.mem_append.mp hp with hp | hp
        · simp only [preList, List.mem_cons, List.not_mem_nil, or_false] at hp
          rcases hp with rfl | rfl | rfl | rfl | rfl | rfl
          · exact ⟨by simp, by simp⟩
          · exact ⟨by simp, by simp⟩
          · exact absurd hw (not_some_of_none_or_empty hoveq hww)
          · exact ⟨by simp, by simp⟩
          · exact ⟨by simp, by simp⟩
          · exact ⟨by simp, by simp⟩
        · obtain ⟨c, hc, rfl⟩ := List.mem_map.mp hp
          simp only at hw
          obtain rfl : c.2 = w := Option.some.inj hw
          exact ⟨fun h => (hcust c hc hww).1 h.symm,
            ne_exported_of_short (by decide) c.1⟩
      have halle : ∀ p ∈ preList ctx.optionalLabels
          ++ ctx.optionalLabels.custom.map (fun p => (p.1, some p.2)),
          ∀ w, p.2 = some w → w ≠ "" →
            ("exported_" ++ "location") ≠ p.1 ∧
            ("exported_" ++ "location") ≠ "exported_" ++ p.1 := by
        intro p hp w hw hww
        rcases List.mem_append.mp hp with hp | hp
        · simp only [preList, List.mem_cons, List.not_mem_nil, or_false] at hp
          rcases hp with rfl | rfl | rfl | rfl | rfl | rfl
          · exact ⟨by simp, by simp⟩
          · exact ⟨by simp, by simp⟩
          · exact absurd hw (not_some_of_none_or_empty hoveq hww)
          · exact ⟨by simp, by simp⟩
          · exact ⟨by simp, by simp⟩
          · exact ⟨by simp, by simp⟩
        · obtain ⟨c, hc, rfl⟩ := List.mem_map.mp hp
          simp only at hw
          obtain rfl : c.2 = w := Option.some.inj hw
          exact ⟨fun h => (hcust c hc hww).2 h.symm,
            fun h => (hcust c hc hww).1 (exported_inj.mp h).symm⟩
      refine ⟨?_, ?_⟩
      · rw [enrichTags_eq, lookupTag_optFold_ne _ _ _ hallk,
          lookupTag_renameSet2_ne _ _ _ _ (by simp) (by simp) (by simp) (by simp)]
      · rw [enrichTags_eq, lookupTag_optFold_ne _ _ _ halle,
          lookupTag_renameSet2_ne _ _ _ _ (by simp) (by simp) (by simp) (by simp)]
  · obtain ⟨rfl, hv⟩ := hmem
    constructor
    · intro v hov hvne
      have hreg : ctx.optionalLabels.country = some v := by rw [← hv, hov]
      have hL : preList ctx.optionalLabels
          ++ ctx.optionalLabels.custom.map (fun p => (p.1, some p.2))
          = [("geohash", ctx.optionalLabels.geohash), ("region", ctx.optionalLabels.region), ("location", ctx.optionalLabels.location)] ++ ("country", some v)
            :: ([("name", ctx.optionalLabels.name), ("provider", ctx.optionalLabels.provider)] ++ ctx.optionalLabels.custom.map (fun p => (p.1, some p.2))) := by
        simp [preList, hreg]
      have h₂ : ∀ p ∈ [("name", ctx.optionalLabels.name), ("provider", ctx.optionalLabels.provider)]
          ++ ctx.optionalLabels.custom.map (fun p => (p.1, some p.2)),
          ∀ w, p.2 = some w → w ≠ "" →
            p.1 ≠ "country" ∧ p.1 ≠ "exported_" ++ "country" ∧ "country" ≠ "exported_" ++ p.1 := by
        intro p hp w hw hww
        rcases List.mem_append.mp hp with hp | hp
        · fin_cases hp <;> exact ⟨by simp, by simp, by simp⟩
        · obtain ⟨c, hc, rfl⟩ := List.mem_map.mp hp
          simp only at hw
          obtain rfl : c.2 = w := Option.some.inj hw
          exact ⟨(hcust c hc hww).1, (hcust c hc hww).2,
            ne_exported_of_short (by decide) c.1⟩
      have hstep := lookupTag_optFold_step [("geohash", ctx.optionalLabels.geohash), ("region", ctx.optionalLabels.region), ("location", ctx.optionalLabels.location)] _ "country" v
        (renameSet (renameSet m "target" ctx.target) "module" ctx.module) hvne h₂
      have hk0 : lookupTag (optFold [("geohash", ctx.optionalLabels.geohash), ("region", ctx.optionalLabels.region), ("location", ctx.optionalLabels.location)]
          (renameSet (renameSet m "target" ctx.target) "module" ctx.module)) "country"
          = lookupTag m "country" := by
        rw [lookupTag_optFold_ne [("geohash", ctx.optionalLabels.geohash), ("region", ctx.optionalLabels.region), ("location", ctx.optionalLabels.location)] _ _
            (by intro p hp w hw hww; fin_cases hp <;> exact ⟨by simp, by simp⟩),
          lookupTag_renameSet2_ne _ _ _ _ (by simp) (by simp) (by simp) (by simp)]
      have hexp0 : lookupTag (optFold [("geohash", ctx.optionalLabels.geohash), ("region", ctx.optionalLabels.region), ("location", ctx.optionalLabels.location)]
          (renameSet (renameSet m "target" ctx.target) "module" ctx.module))
          ("exported_" ++ "country") = lookupTag m ("exported_" ++ "country") := by
        rw [lookupTag_optFold_ne [("geohash", ctx.optionalLabels.geohash), ("region", ctx.optionalLabels.region), ("location", ctx.optionalLabels.location)] _ _
            (by intro p hp w hw hww; fin_cases hp <;> exact ⟨by simp, by simp⟩),
          lookupTag_renameSet2_ne _ _ _ _ (by simp) (by simp) (by simp) (by simp)]
      refine ⟨?_, fun old hold => ?_, fun hnone => ?_⟩
      · rw [enrichTags_eq, hL]
        exact hstep.1
      · rw [enrichTags_eq, hL, hstep.2, hk0, hold]
      · rw [enrichTags_eq, hL, hstep.2, hk0, hnone, hexp0]
    · intro hov0
      have hoveq : ctx.optionalLabels.country = none ∨ ctx.optionalLabels.country = some "" := by
        rw [← hv]; exact hov0
      have hallk : ∀ p ∈ preList ctx.optionalLabels
          ++ ctx.optionalLabels.custom.map (fun p => (p.1, some p.2)),
          ∀ w, p.2 = some w → w ≠ "" →
            "country" ≠ p.1 ∧ "country" ≠ "exported_" ++ p.1 := by
        intro p hp w hw hww
        rcases List.mem_append.mp hp with hp | hp
        · simp only [preList, List.mem_cons, List.not_mem_nil, or_false] at hp
          rcases hp with rfl | rfl | rfl | rfl | rfl | rfl
          · exact ⟨by simp, by simp⟩
          · exact ⟨by simp, by simp⟩
          · exact ⟨by simp, by simp⟩
          · exact absurd hw (not_some_of_none_or_empty hoveq hww)
          · exact ⟨by simp, by simp⟩
          · exact ⟨by simp, by simp⟩
        · obtain ⟨c, hc, rfl⟩ := List.mem_map.mp hp
          simp only at hw
          obtain rfl : c.2 = w := Option.some.inj hw
          exact ⟨fun h => (hcust c hc hww).1 h.symm,
            ne_exported_of_short (by decide) c.1⟩
      have halle : ∀ p ∈ preList ctx.optionalLabels
          ++ ctx.optionalLabels.custom.map (fun p => (p.1, some p.2)),
          ∀ w, p.2 = some w → w ≠ "" →
            ("exported_" ++ "country") ≠ p.1 ∧
            ("exported_" ++ "country") ≠ "exported_" ++ p.1 := by
        intro p hp w hw hww
        rcases List.mem_append.mp hp with hp | hp
        · simp only [preList, List.mem_cons, List.not_mem_nil, or_false] at hp
          rcases hp with rfl | rfl | rfl | rfl | rfl | rfl
          · exact ⟨by simp, by simp⟩
          · exact ⟨by simp, by simp⟩
          · exact ⟨by simp, by simp⟩
          · exact absurd hw (not_some_of_none_or_empty hoveq hww)
          · exact ⟨by simp, by simp⟩
          · exact ⟨by simp, by simp⟩
        · obtain ⟨c, hc, rfl⟩ := List.mem_map.mp hp
          simp only at hw
          obtain rfl : c.2 = w := Option.some.inj hw
          exact ⟨fun h => (hcust c hc hww).2 h.symm,
            fun h => (hcust c hc hww).1 (exported_inj.mp h).symm⟩
      refine ⟨?_, ?_⟩
      · rw [enrichTags_eq, lookupTag_optFold_ne _ _ _ hallk,
          lookupTag_renameSet2_ne _ _ _ _ (by simp) (by simp) (by simp) (by simp)]
      · rw [enrichTags_eq, lookupTag_optFold_ne _ _ _ halle,
          lookupTag_renameSet2_ne _ _ _ _ (by simp) (by simp) (by simp) (by simp)]
  · obtain ⟨rfl, hv⟩ := hmem
    constructor
    · intro v hov hvne
      have hreg : ctx.optionalLabels.name = some v := by rw [← hv, hov]
      have hL : preList ctx.optionalLabels
          ++ ctx.optionalLabels.custom.map (fun p => (p.1, some p.2))
          = [("geohash", ctx.optionalLabels.geohash), ("region", ctx.optionalLabels.region), ("location", ctx.optionalLabels.location), ("country", ctx.optionalLabels.country)] ++ ("name", some v)
            :: ([("provider", ctx.optionalLabels.provider)] ++ ctx.optionalLabels.custom.map (fun p => (p.1, some p.2))) := by
        simp [preList, hreg]
      have h₂ : ∀ p ∈ [("provider", ctx.optionalLabels.provider)]
          ++ ctx.optionalLabels.custom.map (fun p => (p.1, some p.2)),
          ∀ w, p.2 = some w → w ≠ "" →
            p.1 ≠ "name" ∧ p.1 ≠ "exported_" ++ "name" ∧ "name" ≠ "exported_" ++ p.1 := by
        intro p hp w hw hww
        rcases List.mem_append.mp hp with hp | hp
        · fin_cases hp <;> exact ⟨by simp, by simp, by simp⟩
        · obtain ⟨c, hc, rfl⟩ := List.mem_map.mp hp
          simp only at hw
          obtain rfl : c.2 = w := Option.some.inj hw
          exact ⟨(hcust c hc hww).1, (hcust c hc hww).2,
            ne_exported_of_short (by decide) c.1⟩
      have hstep := lookupTag_optFold_step [("geohash", ctx.optionalLabels.geohash), ("region", ctx.optionalLabels.region), ("location", ctx.optionalLabels.location), ("country", ctx.optionalLabels.country)] _ "name" v
        (renameSet (renameSet m "target" ctx.target) "module" ctx.module) hvne h₂
      have hk0 : lookupTag (optFold [("geohash", ctx.optionalLabels.geohash), ("region", ctx.optionalLabels.region), ("location", ctx.optionalLabels.location), ("country", ctx.optionalLabels.country)]
          (renameSet (renameSet m "target" ctx.target) "module" ctx.module)) "name"
          = lookupTag m "name" := by
        rw [lookupTag_optFold_ne [("geohash", ctx.optionalLabels.geohash), ("region", ctx.optionalLabels.region), ("location", ctx.optionalLabels.location), ("country", ctx.optionalLabels.country)] _ _
            (by intro p hp w hw hww; fin_cases hp <;> exact ⟨by simp, by simp⟩),
          lookupTag_renameSet2_ne _ _ _ _ (by simp) (by simp) (by simp) (by simp)]
      have hexp0 : lookupTag (optFold [("geohash", ctx.optionalLabels.geohash), ("region", ctx.optionalLabels.region), ("location", ctx.optionalLabels.location), ("country", ctx.optionalLabels.country)]
          (renameSet (renameSet m "target" ctx.target) "module" ctx.module))
          ("exported_" ++ "name") = lookupTag m ("exported_" ++ "name") := by
        rw [lookupTag_optFold_ne [("geohash", ctx.optionalLabels.geohash), ("region", ctx.optionalLabels.region), ("location", ctx.optionalLabels.location), ("country", ctx.optionalLabels.country)] _ _
            (by intro p hp w hw hww; fin_cases hp <;> exact ⟨by simp, by simp⟩),
          lookupTag_renameSet2_ne _ _ _ _ (by simp) (by simp) (by simp) (by simp)]
      refine ⟨?_, fun old hold => ?_, fun hnone => ?_⟩
      · rw [enrichTags_eq, hL]
        exact hstep.1
      · rw [enrichTags_eq, hL, hstep.2, hk0, hold]
      · rw [enrichTags_eq, hL, hstep.2, hk0, hnone, hexp0]
    · intro hov0
      have hoveq : ctx.optionalLabels.name = none ∨ ctx.optionalLabels.name = some "" := by
        rw [← hv]; exact hov0
      have hallk : ∀ p ∈ preList ctx.optionalLabels
          ++ ctx.optionalLabels.custom.map (fun p => (p.1, some p.2)),
          ∀ w, p.2 = some w → w ≠ "" →
            "name" ≠ p.1 ∧ "name" ≠ "exported_" ++ p.1 := by
        intro p hp w hw hww
        rcases List.mem_append.mp hp with hp | hp
        · simp only [preList, List.mem_cons, List.not_mem_nil, or_false] at hp
          rcases hp with rfl | rfl | rfl | rfl | rfl | rfl
          · exact ⟨by simp, by simp⟩
          · exact ⟨by simp, by simp⟩
          · exact ⟨by simp, by simp⟩
          · exact ⟨by simp, by simp⟩
          · exact absurd hw (not_some_of_none_or_empty hoveq hww)
          · exact ⟨by simp, by simp⟩
        · obtain ⟨c, hc, rfl⟩ := List.mem_map.mp hp
          simp only at hw
          obtain rfl : c.2 = w := Option.some.inj hw
          exact ⟨fun h => (hcust c hc hww).1 h.symm,
            ne_exported_of_short (by decide) c.1⟩
      have halle : ∀ p ∈ preList ctx.optionalLabels
          ++ ctx.optionalLabels.custom.map (fun p => (p.1, some p.2)),
          ∀ w, p.2 = some w → w ≠ "" →
            ("exported_" ++ "name") ≠ p.1 ∧
            ("exported_" ++ "name") ≠ "exported_" ++ p.1 := by
        intro p hp w hw hww
        rcases List.mem_append.mp hp with hp | hp
        · simp only [preList, List.mem_cons, List.not_mem_nil, or_false] at hp
          rcases hp with rfl | rfl | rfl | rfl | rfl | rfl
          · exact ⟨by simp, by simp⟩
          · exact ⟨by simp, by simp⟩
          · exact ⟨by simp, by simp⟩
          · exact ⟨by simp, by simp⟩
          · exact absurd hw (not_some_of_none_or_empty hoveq hww)
          · exact ⟨by simp, by simp⟩
        · obtain ⟨c, hc, rfl⟩ := List.mem_map.mp hp
          simp only at hw
          obtain rfl : c.2 = w := Option.some.inj hw
          exact ⟨fun h => (hcust c hc hww).2 h.symm,
            fun h => (hcust c hc hww).1 (exported_inj.mp h).symm⟩
      refine ⟨?_, ?_⟩
      · rw [enrichTags_eq, lookupTag_optFold_ne _ _ _ hallk,
          lookupTag_renameSet2_ne _ _ _ _ (by simp) (by simp) (by simp) (by simp)]
      · rw [enrichTags_eq, lookupTag_optFold_ne _ _ _ halle,
          lookupTag_renameSet2_ne _ _ _ _ (by simp) (by simp) (by simp) (by simp)]
  · obtain ⟨rfl, hv⟩ := hmem
    constructor
    · intro v hov hvne
      have hreg : ctx.optionalLabels.provider = some v := by rw [← hv, hov]
      have hL : preList ctx.optionalLabels
          ++ ctx.optionalLabels.custom.map (fun p => (p.1, some p.2))
          = [("geohash", ctx.optionalLabels.geohash), ("region", ctx.optionalLabels.region), ("location", ctx.optionalLabels.location), ("country", ctx.optionalLabels.country), ("name", ctx.optionalLabels.name)] ++ ("provider", some v)
            :: (([] : List (String × Option String)) ++ ctx.optionalLabels.custom.map (fun p => (p.1, some p.2))) := by
        simp [preList, hreg]
      have h₂ : ∀ p ∈ ([] : List (String × Option String))
          ++ ctx.optionalLabels.custom.map (fun p => (p.1, some p.2)),
          ∀ w, p.2 = some w → w ≠ "" →
            p.1 ≠ "provider" ∧ p.1 ≠ "exported_" ++ "provider" ∧ "provider" ≠ "exported_" ++ p.1 := by
        intro p hp w hw hww
        rcases List.mem_append.mp hp with hp | hp
        · fin_cases hp <;> exact ⟨by simp, by simp, by simp⟩
        · obtain ⟨c, hc, rfl⟩ := List.mem_map.mp hp
          simp only at hw
          obtain rfl : c.2 = w := Option.some.inj hw
          exact ⟨(hcust c hc hww).1, (hcust c hc hww).2,
            ne_exported_of_short (by decide) c.1⟩
      have hstep := lookupTag_optFold_step [("geohash", ctx.optionalLabels.geohash), ("region", ctx.optionalLabels.region), ("location", ctx.optionalLabels.location), ("country", ctx.optionalLabels.country), ("name", ctx.optionalLabels.name)] _ "provider" v
        (renameSet (renameSet m "target" ctx.target) "module" ctx.module) hvne h₂
      have hk0 : lookupTag (optFold [("geohash", ctx.optionalLabels.geohash), ("region", ctx.optionalLabels.region), ("location", ctx.optionalLabels.location), ("country", ctx.optionalLabels.country), ("name", ctx.optionalLabels.name)]
          (renameSet (renameSet m "target" ctx.target) "module" ctx.module)) "provider"
          = lookupTag m "provider" := by
        rw [lookupTag_optFold_ne [("geohash", ctx.optionalLabels.geohash), ("region", ctx.optionalLabels.region), ("location", ctx.optionalLabels.location), ("country", ctx.optionalLabels.country), ("name", ctx.optionalLabels.name)] _ _
            (by intro p hp w hw hww; fin_cases hp <;> exact ⟨by simp, by simp⟩),
          lookupTag_renameSet2_ne _ _ _ _ (by simp) (by simp) (by simp) (by simp)]
      have hexp0 : lookupTag (optFold [("geohash", ctx.optionalLabels.geohash), ("region", ctx.optionalLabels.region), ("location", ctx.optionalLabels.location), ("country", ctx.optionalLabels.country), ("name", ctx.optionalLabels.name)]
          (renameSet (renameSet m "target" ctx.target) "module" ctx.module))
          ("exported_" ++ "provider") = lookupTag m ("exported_" ++ "provider") := by
        rw [lookupTag_optFold_ne [("geohash", ctx.optionalLabels.geohash), ("region", ctx.optionalLabels.region), ("location", ctx.optionalLabels.location), ("country", ctx.optionalLabels.country), ("name", ctx.optionalLabels.name)] _ _
            (by intro p hp w hw hww; fin_cases hp <;> exact ⟨by simp, by simp⟩),
          lookupTag_renameSet2_ne _ _ _ _ (by simp) (by simp) (by simp) (by simp)]
      refine ⟨?_, fun old hold => ?_, fun hnone => ?_⟩
      · rw [enrichTags_eq, hL]
        exact hstep.1
      · rw [enrichTags_eq, hL, hstep.2, hk0, hold]
      · rw [enrichTags_eq, hL, hstep.2, hk0, hnone, hexp0]
    · intro hov0
      have hoveq : ctx.optionalLabels.provider = none ∨ ctx.optionalLabels.provider = some "" := by
        rw [← hv]; exact hov0
      have hallk : ∀ p ∈ preList ctx.optionalLabels
          ++ ctx.optionalLabels.custom.map (fun p => (p.1, some p.2)),
          ∀ w, p.2 = some w → w ≠ "" →
            "provider" ≠ p.1 ∧ "provider" ≠ "exported_" ++ p.1 := by
        intro p hp w hw hww
        rcases List.mem_append.mp hp with hp | hp
        · simp only [preList, List.mem_cons, List.not_mem_nil, or_false] at hp
          rcases hp with rfl | rfl | rfl | rfl | rfl | rfl
          · exact ⟨by simp, by simp⟩
          · exact ⟨by simp, by simp⟩
          · exact ⟨by simp, by simp⟩
          · exact ⟨by simp, by simp⟩
          · exact ⟨by simp, by simp⟩
          · exact absurd hw (not_some_of_none_or_empty hoveq hww)
        · obtain ⟨c, hc, rfl⟩ := List.mem_map.mp hp
          simp only at hw
          obtain rfl : c.2 = w := Option.some.inj hw
          exact ⟨fun h => (hcust c hc hww).1 h.symm,
            ne_exported_of_short (by decide) c.1⟩
      have halle : ∀ p ∈ preList ctx.optionalLabels
          ++ ctx.optionalLabels.custom.map (fun p => (p.1, some p.2)),
          ∀ w, p.2 = some w → w ≠ "" →
            ("exported_" ++ "provider") ≠ p.1 ∧
            ("exported_" ++ "provider") ≠ "exported_" ++ p.1 := by
        intro p hp w hw hww
        rcases List.mem_append.mp hp with hp | hp
        · simp only [preList, List.mem_cons, List.not_mem_nil, or_false] at hp
          rcases hp with rfl | rfl | rfl | rfl | rfl | rfl
          · exact ⟨by simp, by simp⟩
          · exact ⟨by simp, by simp⟩
          · exact ⟨by simp, by simp⟩
          · exact ⟨by simp, by simp⟩
          · exact ⟨by simp, by simp⟩
          · exact absurd hw (not_some_of_none_or_empty hoveq hww)
        · obtain ⟨c, hc, rfl⟩ := List.mem_map.mp hp
          simp only at hw
          obtain rfl : c.2 = w := Option.some.inj hw
          exact ⟨fun h => (hcust c hc hww).2 h.symm,
            fun h => (hcust c hc hww).1 (exported_inj.mp h).symm⟩
      refine ⟨?_, ?_⟩
      · rw [enrichTags_eq, lookupTag_optFold_ne _ _ _ hallk,
          lookupTag_renameSet2_ne _ _ _ _ (by simp) (by simp) (by simp) (by simp)]
      · rw [enrichTags_eq, lookupTag_optFold_ne _ _ _ halle,
          lookupTag_renameSet2_ne _ _ _ _ (by simp) (by simp) (by simp) (by simp)]

/-- C7, counterexample: with predefined `region=Some("AMER")` and an ad-hoc
label `region=adhoc`, enrichment does NOT leave the `region` tag at the
configured value `AMER` — the ad-hoc pass overwrites it. -/
theorem C7_counterexample :
    lookupTag (enrichTags []
        ⟨"T", "M", ⟨none, some "AMER", none, none, none, none,
          [("region", "adhoc")]⟩⟩) "region" ≠ some "AMER" := by decide

/-- Witness for C7 with `region=Some("AMER")`, no conflicting tags and no
custom labels: `region=AMER` and no `exported_region` tag. -/
theorem C7_predefined_witness :
    lookupTag (enrichTags []
        ⟨"T", "M", ⟨none, some "AMER", none, none, none, none, []⟩⟩) "region"
      = some "AMER" ∧
    lookupTag (enrichTags []
        ⟨"T", "M", ⟨none, some "AMER", none, none, none, none, []⟩⟩)
        ("exported_" ++ "region") = none := by
  have h := C7_predefined []
    ⟨"T", "M", ⟨none, some "AMER", none, none, none, none, []⟩⟩
    "region" (some "AMER") (by simp [preList]) (by simp)
  refine ⟨(h.1 "AMER" rfl (by decide)).1, ?_⟩
  have h2 := (h.1 "AMER" rfl (by decide)).2.2 (by decide)
  rw [h2]
  rfl

/-- C3, counterexample: when the base endpoint's own query already contains a
parameter starting with `target=`, the builder's context construction finds
that one first: base query `target=x`, target `y` — the decoded per-target
context is `x`, not `y`. -/
theorem C3_counterexample :
    buildTargetFromUrl (constructProbeUrl
        ⟨some "http", some "h", "/", some (asciiBytes "target=x")⟩
        (asciiBytes "y") (asciiBytes "m"))
      ≠ asciiBytes "y" := by decide

/-- C3, amended: for every base endpoint none of whose query parameters
starts with `target=` (resp. `module=`), every byte-valid target and module
round-trip: the per-target context construction (extract `target=`, strip,
percent-decode) yields the original target bytes, and percent-decoding the
built URL's `module=` parameter value yields the original module bytes. -/
theorem C3_roundtrip (base : BaseUri) (t m : List Nat)
    (ht : ValidBytes t) (hm : ValidBytes m)
    (hbt : ∀ q, base.query = some q →
      ∀ p ∈ splitSep 38 q, targetKey.isPrefixOf p = false)
    (hbm : ∀ q, base.query = some q →
      ∀ p ∈ splitSep 38 q, moduleKey.isPrefixOf p = false) :
    buildTargetFromUrl (constructProbeUrl base t m) = t ∧
    (extractParamValue (constructProbeUrl base t m).query moduleKey).map percentDecode
      = some m := by
  have h1 := extract_target_from_built base.query t m hbt
  have h2 := extract_module_from_built base.query t m hbm
  constructor
  · show (match extractParamValue (probeQuery base.query t m) targetKey with
      | some enc => percentDecode enc
      | none => []) = t
    rw [h1]
    exact percentDecode_percentEncode ht
  · show (extractParamValue (probeQuery base.query t m) moduleKey).map percentDecode
      = some m
    rw [h2]
    simp [percentDecode_percentEncode hm]

/-- Witness for C3's round-trip at a base without query, target `a b`,
module `m_1`. -/
theorem C3_roundtrip_witness :
    buildTargetFromUrl (constructProbeUrl ⟨some "http", some "h", "/", none⟩
        (asciiBytes "a b") (asciiBytes "m_1")) = asciiBytes "a b" ∧
    (extractParamValue (constructProbeUrl ⟨some "http", some "h", "/", none⟩
        (asciiBytes "a b") (asciiBytes "m_1")).query moduleKey).map percentDecode
      = some (asciiBytes "m_1") :=
  C3_roundtrip ⟨some "http", some "h", "/", none⟩ (asciiBytes "a b") (asciiBytes "m_1")
    (by decide) (by decide)
    (fun q hq => Option.noConfusion hq) (fun q hq => Option.noConfusion hq)
